import Mathlib

/-!
Verification of the bespoke topic-modeling engine of the Narrative Nexus
repository (`backend/advanced_topic_modeling.py`, with the duplicated
`SimpleNMF.update_matrices` variant living in
`backend/app_minimal_corrupted_backup.py`).

Embedding conventions:
* A document is represented by the list of its lower-cased,
  whitespace-split tokens (the Python code always enters the models
  through `doc.lower().split()`); `String` stands for one token.
* Python `int` counts are embedded as `ℤ`, Python `float` arithmetic as
  `ℚ` for the LDA code (which only adds, multiplies and divides) and as
  `ℝ` for the NMF TF-IDF matrix (which calls `math.log`).
* Mutation of the Python list-of-list count tables becomes functional
  update (`List.set`); reads out of range, which would raise
  `IndexError` in Python, read a default that is never reached under the
  well-formedness hypotheses of the theorems.
* Calls to `random.random()` / `random.randint` are supplied as explicit
  oracle streams.
-/

namespace NarrativeNexus

/-- Read entry `i` of a Python list of numbers (default only reached out of range). -/
def g1 {α : Type} [Zero α] (l : List α) (i : ℕ) : α := l.getD i 0

/-- Read entry `(i, j)` of a Python list of lists of numbers. -/
def g2 {α : Type} [Zero α] (m : List (List α)) (i j : ℕ) : α := (m.getD i []).getD j 0

/-- Python `l[i] += d` on a list of integers (no-op out of range, like `List.set`). -/
def bump (l : List ℤ) (i : ℕ) (d : ℤ) : List ℤ := l.set i (l.getD i 0 + d)

/-- Python `m[i][j] += d` on a list of lists of integers. -/
def bump2 (m : List (List ℤ)) (i j : ℕ) (d : ℤ) : List (List ℤ) :=
  m.set i (bump (m.getD i []) j d)

theorem bump_length (l : List ℤ) (i : ℕ) (d : ℤ) : (bump l i d).length = l.length := by
  simp [bump]

theorem bump2_length (m : List (List ℤ)) (i j : ℕ) (d : ℤ) :
    (bump2 m i j d).length = m.length := by
  simp [bump2]

theorem bump_sum (l : List ℤ) (i : ℕ) (d : ℤ) (h : i < l.length) :
    (bump l i d).sum = l.sum + d := by
  induction l generalizing i with
  | nil => simp at h
  | cons a t ih =>
    cases i with
    | zero => simp [bump]; ring
    | succ n =>
      have hn : n < t.length := by simpa using h
      have := ih n hn
      simp [bump] at this ⊢
      simp [List.getD_cons_succ, this]
      ring

theorem bump_getD (l : List ℤ) (i : ℕ) (d : ℤ) (j : ℕ) (h : i < l.length) :
    (bump l i d).getD j 0 = if j = i then l.getD i 0 + d else l.getD j 0 := by
  induction l generalizing i j with
  | nil => simp at h
  | cons a t ih =>
    cases i with
    | zero =>
      cases j with
      | zero => simp [bump]
      | succ m => simp [bump]
    | succ n =>
      have hn : n < t.length := by simpa using h
      cases j with
      | zero => simp [bump]
      | succ m =>
        have := ih n m hn
        simp [bump] at this ⊢
        simpa [List.getD_cons_succ] using this

theorem set_getD (m : List (List ℤ)) (i : ℕ) (r : List ℤ) (j : ℕ) (h : i < m.length) :
    ((m.set i r).getD j []) = if j = i then r else m.getD j [] := by
  induction m generalizing i j with
  | nil => simp at h
  | cons a t ih =>
    cases i with
    | zero =>
      cases j with
      | zero => simp
      | succ n => simp
    | succ n =>
      have hn : n < t.length := by simpa using h
      cases j with
      | zero => simp
      | succ k =>
        have := ih n k hn
        simpa using this

theorem bump2_getD (m : List (List ℤ)) (i j : ℕ) (d : ℤ) (k : ℕ) (h : i < m.length) :
    ((bump2 m i j d).getD k []) = if k = i then bump (m.getD i []) j d else m.getD k [] := by
  simpa [bump2] using set_getD m i (bump (m.getD i []) j d) k h

/-! ## SimpleLDA (backend/advanced_topic_modeling.py, lines 21-183) -/

/-- State of a `SimpleLDA` instance: hyperparameters from `__init__` plus the
model fields filled in by `fit` (`build_vocabulary`, `initialize_assignments`). -/
structure LDAModel where
  num_topics : ℕ
  alpha : ℚ
  beta : ℚ
  vocabulary : List String
  doc_topic_counts : List (List ℤ)
  topic_word_counts : List (List ℤ)
  topic_counts : List ℤ
  doc_lengths : List ℕ
  topic_assignments : List (List ℕ)
  deriving DecidableEq

/-- The three decrements at the top of `SimpleLDA.sample_topic` (lines 93-96). -/
def decCounts (m : LDAModel) (doc_id word_id old_topic : ℕ) : LDAModel :=
  { m with
    doc_topic_counts := bump2 m.doc_topic_counts doc_id old_topic (-1)
    topic_word_counts := bump2 m.topic_word_counts old_topic word_id (-1)
    topic_counts := bump m.topic_counts old_topic (-1) }

/-- The three increments at the bottom of `SimpleLDA.sample_topic` (lines 125-128),
also the per-token count updates of `initialize_assignments` (lines 84-87). -/
def incCounts (m : LDAModel) (doc_id word_id new_topic : ℕ) : LDAModel :=
  { m with
    doc_topic_counts := bump2 m.doc_topic_counts doc_id new_topic 1
    topic_word_counts := bump2 m.topic_word_counts new_topic word_id 1
    topic_counts := bump m.topic_counts new_topic 1 }

/-- The per-topic unnormalized probabilities computed by `sample_topic`
(lines 98-108), evaluated on the already-decremented state. -/
def sampleProbs (m : LDAModel) (doc_id word_id : ℕ) : List ℚ :=
  (List.range m.num_topics).map fun topic =>
    let doc_topic_prob : ℚ :=
      ((g2 m.doc_topic_counts doc_id topic : ℤ) + m.alpha) /
        ((m.doc_lengths.getD doc_id 0 : ℚ) - 1 + (m.num_topics : ℚ) * m.alpha)
    let topic_word_prob : ℚ :=
      ((g2 m.topic_word_counts topic word_id : ℤ) + m.beta) /
        ((g1 m.topic_counts topic : ℤ) + (m.vocabulary.length : ℚ) * m.beta)
    doc_topic_prob * topic_word_prob

/-- The cumulative-sum scan of `sample_topic` (lines 116-123): `new_topic`
starts at 0 and becomes the first index whose running cumulative probability
strictly exceeds the uniform draw `u`. -/
def pickLoop (probs : List ℚ) (u cumsum : ℚ) (idx : ℕ) : ℕ :=
  match probs with
  | [] => 0
  | p :: rest => if u < cumsum + p then idx else pickLoop rest u (cumsum + p) (idx + 1)

/-- `SimpleLDA.sample_topic` (lines 91-130).  The uniform draw
`random.random()` is the oracle `u`; the degenerate-state fallback
`random.randint(0, num_topics - 1)` is the oracle `fb`.  Returns the updated
model and the sampled topic. -/
def sample_topic (m : LDAModel) (doc_id word_id old_topic : ℕ) (u : ℚ) (fb : ℕ) :
    LDAModel × ℕ :=
  let m1 := decCounts m doc_id word_id old_topic
  let probabilities := sampleProbs m1 doc_id word_id
  let total_prob := probabilities.sum
  let new_topic :=
    if total_prob = 0 then fb
    else pickLoop (probabilities.map fun p => p / total_prob) u 0 0
  (incCounts m1 doc_id word_id new_topic, new_topic)

/-- The `(doc_id, word_id, topic)` triples visited by the nested loops of
`initialize_assignments` (lines 78-87) for one document `ws` whose id is
`d0`, the global token counter standing at `n0`; token number `n` of the
whole corpus draws topic `rng n` (the `random.randint(0, num_topics - 1)`
oracle). -/
def docTriples (d0 : ℕ) (ws : List ℕ) (rng : ℕ → ℕ) (n0 : ℕ) : List (ℕ × ℕ × ℕ) :=
  match ws with
  | [] => []
  | w :: rest => (d0, w, rng n0) :: docTriples d0 rest rng (n0 + 1)

/-- All `(doc_id, word_id, topic)` triples of `initialize_assignments`, in
visiting order (documents in corpus order, tokens in document order). -/
def tokenTriplesAux (ds : List (List ℕ)) (rng : ℕ → ℕ) (d0 n0 : ℕ) : List (ℕ × ℕ × ℕ) :=
  match ds with
  | [] => []
  | doc :: rest => docTriples d0 doc rng n0 ++ tokenTriplesAux rest rng (d0 + 1) (n0 + doc.length)

def tokenTriples (docs : List (List ℕ)) (rng : ℕ → ℕ) : List (ℕ × ℕ × ℕ) :=
  tokenTriplesAux docs rng 0 0

/-- Per-document random topic assignments recorded by
`initialize_assignments`: token number `n` (in global visiting order) gets
topic `rng n`. -/
def assignAux (ds : List (List ℕ)) (rng : ℕ → ℕ) (n : ℕ) : List (List ℕ) :=
  match ds with
  | [] => []
  | d :: rest => (List.range d.length).map (fun i => rng (n + i)) :: assignAux rest rng (n + d.length)

/-- Folding the per-token count updates over a triple list. -/
def foldInc (s : LDAModel) (L : List (ℕ × ℕ × ℕ)) : LDAModel :=
  L.foldl (fun s x => incCounts s x.1 x.2.1 x.2.2) s

/-- The zeroed count matrices, `doc_lengths` and random assignments set up by
`initialize_assignments` before its counting loops (lines 70-77). -/
def initBase (m : LDAModel) (docs : List (List ℕ)) (rng : ℕ → ℕ) : LDAModel :=
  { m with
    doc_topic_counts := List.replicate docs.length (List.replicate m.num_topics 0)
    topic_word_counts := List.replicate m.num_topics (List.replicate m.vocabulary.length 0)
    topic_counts := List.replicate m.num_topics 0
    doc_lengths := docs.map List.length
    topic_assignments := assignAux docs rng 0 }

/-- `SimpleLDA.initialize_assignments` (lines 65-89): zeroed count matrices,
`doc_lengths`, then one `incCounts` per token with its random topic. -/
def initialize_assignments (m : LDAModel) (docs : List (List ℕ)) (rng : ℕ → ℕ) : LDAModel :=
  foldInc (initBase m docs rng) (tokenTriples docs rng)

/-- `SimpleLDA.preprocess_documents` (lines 56-63): each document becomes the
list of vocabulary ids of its in-vocabulary tokens (out-of-vocabulary tokens
are dropped). -/
def preprocess_documents (vocab : List String) (docs : List (List String)) : List (List ℕ) :=
  docs.map fun words => (words.filter fun w => decide (w ∈ vocab)).map fun w => vocab.indexOf w

/-! ### Shape and count invariants (claim C3) -/

/-- Well-formedness of the count tables of a `SimpleLDA` model over `D`
documents: the shapes `fit` always produces. -/
structure LDAShape (m : LDAModel) (D : ℕ) : Prop where
  dt_len : m.doc_topic_counts.length = D
  dt_row : ∀ d, d < D → (m.doc_topic_counts.getD d []).length = m.num_topics
  tw_len : m.topic_word_counts.length = m.num_topics
  tw_row : ∀ t, t < m.num_topics → (m.topic_word_counts.getD t []).length = m.vocabulary.length
  tc_len : m.topic_counts.length = m.num_topics
  dl_len : m.doc_lengths.length = D

/-- The three count invariants of the claim: per-document topic counts sum to
the document length, per-topic word counts sum to the topic count, and the
topic counts sum to the total number of surviving token occurrences. -/
structure CountInv (m : LDAModel) (D : ℕ) : Prop where
  doc_sum : ∀ d, d < D → (m.doc_topic_counts.getD d []).sum = (m.doc_lengths.getD d 0 : ℤ)
  topic_sum : ∀ t, t < m.num_topics → (m.topic_word_counts.getD t []).sum = g1 m.topic_counts t
  total_sum : m.topic_counts.sum = ((m.doc_lengths.map fun n => (n : ℤ)).sum)

theorem bump2_row_length (m : List (List ℤ)) (i j : ℕ) (d : ℤ) (k : ℕ) :
    ((bump2 m i j d).getD k []).length = (m.getD k []).length := by
  by_cases hi : i < m.length
  · rw [bump2_getD m i j d k hi]
    by_cases hk : k = i
    · rw [if_pos hk, bump_length]
      rw [hk]
    · rw [if_neg hk]
  · have hset : m.set i (bump (m.getD i []) j d) = m :=
      List.set_eq_of_length_le (by omega)
    simp only [bump2]
    rw [hset]

theorem incCounts_shape {m : LDAModel} {D : ℕ} (h : LDAShape m D) (d w t : ℕ) :
    LDAShape (incCounts m d w t) D := by
  refine ⟨?_, ?_, ?_, ?_, ?_, ?_⟩
  · show (bump2 m.doc_topic_counts d t 1).length = D
    rw [bump2_length]; exact h.dt_len
  · intro d' hd'
    show ((bump2 m.doc_topic_counts d t 1).getD d' []).length = m.num_topics
    rw [bump2_row_length]; exact h.dt_row d' hd'
  · show (bump2 m.topic_word_counts t w 1).length = m.num_topics
    rw [bump2_length]; exact h.tw_len
  · intro t' ht'
    show ((bump2 m.topic_word_counts t w 1).getD t' []).length = m.vocabulary.length
    rw [bump2_row_length]; exact h.tw_row t' ht'
  · show (bump m.topic_counts t 1).length = m.num_topics
    rw [bump_length]; exact h.tc_len
  · exact h.dl_len

theorem incCounts_doc_sum {m : LDAModel} {D : ℕ} (h : LDAShape m D) {d t : ℕ} (w : ℕ)
    (hd : d < D) (ht : t < m.num_topics) (d' : ℕ) :
    ((incCounts m d w t).doc_topic_counts.getD d' []).sum
      = (m.doc_topic_counts.getD d' []).sum + if d' = d then 1 else 0 := by
  have hlen : d < m.doc_topic_counts.length := by rw [h.dt_len]; exact hd
  have hrow : t < (m.doc_topic_counts.getD d []).length := by rw [h.dt_row d hd]; exact ht
  show ((bump2 m.doc_topic_counts d t 1).getD d' []).sum
      = (m.doc_topic_counts.getD d' []).sum + if d' = d then 1 else 0
  rw [bump2_getD m.doc_topic_counts d t 1 d' hlen]
  by_cases hdd : d' = d
  · rw [if_pos hdd, if_pos hdd, hdd, bump_sum _ _ _ hrow]
  · rw [if_neg hdd, if_neg hdd, add_zero]

theorem incCounts_topic_word_sum {m : LDAModel} {D : ℕ} (h : LDAShape m D) {w t : ℕ} (d : ℕ)
    (hw : w < m.vocabulary.length) (ht : t < m.num_topics) (t' : ℕ) :
    ((incCounts m d w t).topic_word_counts.getD t' []).sum
      = (m.topic_word_counts.getD t' []).sum + if t' = t then 1 else 0 := by
  have hlen : t < m.topic_word_counts.length := by rw [h.tw_len]; exact ht
  have hrow : w < (m.topic_word_counts.getD t []).length := by rw [h.tw_row t ht]; exact hw
  show ((bump2 m.topic_word_counts t w 1).getD t' []).sum
      = (m.topic_word_counts.getD t' []).sum + if t' = t then 1 else 0
  rw [bump2_getD m.topic_word_counts t w 1 t' hlen]
  by_cases htt : t' = t
  · rw [if_pos htt, if_pos htt, htt, bump_sum _ _ _ hrow]
  · rw [if_neg htt, if_neg htt, add_zero]

theorem incCounts_topic_counts_get {m : LDAModel} {D : ℕ} (h : LDAShape m D) {t : ℕ} (d w : ℕ)
    (ht : t < m.num_topics) (t' : ℕ) :
    g1 (incCounts m d w t).topic_counts t'
      = g1 m.topic_counts t' + if t' = t then 1 else 0 := by
  have hlen : t < m.topic_counts.length := by rw [h.tc_len]; exact ht
  show (bump m.topic_counts t 1).getD t' 0 = m.topic_counts.getD t' 0 + if t' = t then 1 else 0
  rw [bump_getD m.topic_counts t 1 t' hlen]
  by_cases htt : t' = t
  · rw [if_pos htt, if_pos htt, htt]
  · rw [if_neg htt, if_neg htt, add_zero]

theorem incCounts_topic_counts_sum {m : LDAModel} {D : ℕ} (h : LDAShape m D) {t : ℕ} (d w : ℕ)
    (ht : t < m.num_topics) :
    (incCounts m d w t).topic_counts.sum = m.topic_counts.sum + 1 := by
  have hlen : t < m.topic_counts.length := by rw [h.tc_len]; exact ht
  show (bump m.topic_counts t 1).sum = m.topic_counts.sum + 1
  rw [bump_sum _ _ _ hlen]

/-- Main bookkeeping lemma: folding one `incCounts` per visited token adds, to
every per-document row sum, the number of visited tokens of that document; to
every per-topic row sum and topic count, the number of tokens assigned to that
topic; and to the grand total, the number of visited tokens.  Shapes and the
unrelated fields are preserved. -/
theorem foldInc_spec (L : List (ℕ × ℕ × ℕ)) (m : LDAModel) (D : ℕ) (h : LDAShape m D)
    (hr : ∀ x ∈ L, x.1 < D ∧ x.2.1 < m.vocabulary.length ∧ x.2.2 < m.num_topics) :
    LDAShape (foldInc m L) D ∧
    (∀ d, d < D → ((foldInc m L).doc_topic_counts.getD d []).sum
        = (m.doc_topic_counts.getD d []).sum + (L.countP fun x => decide (x.1 = d) : ℤ)) ∧
    (∀ t, t < m.num_topics → ((foldInc m L).topic_word_counts.getD t []).sum
        = (m.topic_word_counts.getD t []).sum + (L.countP fun x => decide (x.2.2 = t) : ℤ)) ∧
    (∀ t, t < m.num_topics → g1 (foldInc m L).topic_counts t
        = g1 m.topic_counts t + (L.countP fun x => decide (x.2.2 = t) : ℤ)) ∧
    ((foldInc m L).topic_counts.sum = m.topic_counts.sum + (L.length : ℤ)) ∧
    (foldInc m L).num_topics = m.num_topics ∧
    (foldInc m L).vocabulary = m.vocabulary ∧
    (foldInc m L).doc_lengths = m.doc_lengths := by
  induction L generalizing m with
  | nil =>
    refine ⟨h, ?_, ?_, ?_, ?_, rfl, rfl, rfl⟩ <;> intros <;> simp [foldInc]
  | cons x L ih =>
    obtain ⟨hx1, hx2, hx3⟩ := hr x (by simp)
    have hstep : LDAShape (incCounts m x.1 x.2.1 x.2.2) D := incCounts_shape h x.1 x.2.1 x.2.2
    have hK : (incCounts m x.1 x.2.1 x.2.2).num_topics = m.num_topics := rfl
    have hV : (incCounts m x.1 x.2.1 x.2.2).vocabulary = m.vocabulary := rfl
    have hfold : foldInc m (x :: L) = foldInc (incCounts m x.1 x.2.1 x.2.2) L := rfl
    have hr' : ∀ y ∈ L, y.1 < D ∧
        y.2.1 < (incCounts m x.1 x.2.1 x.2.2).vocabulary.length ∧
        y.2.2 < (incCounts m x.1 x.2.1 x.2.2).num_topics := by
      intro y hy; exact hr y (by simp [hy])
    obtain ⟨s1, s2, s3, s4, s5, s6, s7, s8⟩ := ih (incCounts m x.1 x.2.1 x.2.2) hstep hr'
    refine ⟨by rwa [hfold], ?_, ?_, ?_, ?_, ?_, ?_, ?_⟩
    · intro d hd
      rw [hfold, s2 d hd, incCounts_doc_sum h x.2.1 hx1 hx3 d, List.countP_cons]
      by_cases hdd : d = x.1
      · simp only [hdd, decide_eq_true_eq, if_pos rfl]
        push_cast
        ring
      · simp only [decide_eq_true_eq, if_neg hdd, if_neg (Ne.symm hdd), add_zero]
    · intro t ht
      rw [hfold, s3 t ht,
        incCounts_topic_word_sum h x.1 hx2 hx3 t, List.countP_cons]
      by_cases htt : t = x.2.2
      · simp only [htt, decide_eq_true_eq, if_pos rfl]
        push_cast
        ring
      · simp only [decide_eq_true_eq, if_neg htt, if_neg (Ne.symm htt), add_zero]
    · intro t ht
      rw [hfold, s4 t ht,
        incCounts_topic_counts_get h x.1 x.2.1 hx3 t, List.countP_cons]
      by_cases htt : t = x.2.2
      · simp only [htt, decide_eq_true_eq, if_pos rfl]
        push_cast
        ring
      · simp only [decide_eq_true_eq, if_neg htt, if_neg (Ne.symm htt), add_zero]
    · rw [hfold, s5, incCounts_topic_counts_sum h x.1 x.2.1 hx3]
      simp only [List.length_cons]
      push_cast
      ring
    · rw [hfold, s6, hK]
    · rw [hfold, s7, hV]
    · rw [hfold, s8]
      rfl

theorem decCounts_shape {m : LDAModel} {D : ℕ} (h : LDAShape m D) (d w t : ℕ) :
    LDAShape (decCounts m d w t) D := by
  refine ⟨?_, ?_, ?_, ?_, ?_, ?_⟩
  · show (bump2 m.doc_topic_counts d t (-1)).length = D
    rw [bump2_length]; exact h.dt_len
  · intro d' hd'
    show ((bump2 m.doc_topic_counts d t (-1)).getD d' []).length = m.num_topics
    rw [bump2_row_length]; exact h.dt_row d' hd'
  · show (bump2 m.topic_word_counts t w (-1)).length = m.num_topics
    rw [bump2_length]; exact h.tw_len
  · intro t' ht'
    show ((bump2 m.topic_word_counts t w (-1)).getD t' []).length = m.vocabulary.length
    rw [bump2_row_length]; exact h.tw_row t' ht'
  · show (bump m.topic_counts t (-1)).length = m.num_topics
    rw [bump_length]; exact h.tc_len
  · exact h.dl_len

theorem decCounts_doc_sum {m : LDAModel} {D : ℕ} (h : LDAShape m D) {d t : ℕ} (w : ℕ)
    (hd : d < D) (ht : t < m.num_topics) (d' : ℕ) :
    ((decCounts m d w t).doc_topic_counts.getD d' []).sum
      = (m.doc_topic_counts.getD d' []).sum + if d' = d then -1 else 0 := by
  have hlen : d < m.doc_topic_counts.length := by rw [h.dt_len]; exact hd
  have hrow : t < (m.doc_topic_counts.getD d []).length := by rw [h.dt_row d hd]; exact ht
  show ((bump2 m.doc_topic_counts d t (-1)).getD d' []).sum
      = (m.doc_topic_counts.getD d' []).sum + if d' = d then -1 else 0
  rw [bump2_getD m.doc_topic_counts d t (-1) d' hlen]
  by_cases hdd : d' = d
  · rw [if_pos hdd, if_pos hdd, hdd, bump_sum _ _ _ hrow]
  · rw [if_neg hdd, if_neg hdd, add_zero]

theorem decCounts_topic_word_sum {m : LDAModel} {D : ℕ} (h : LDAShape m D) {w t : ℕ} (d : ℕ)
    (hw : w < m.vocabulary.length) (ht : t < m.num_topics) (t' : ℕ) :
    ((decCounts m d w t).topic_word_counts.getD t' []).sum
      = (m.topic_word_counts.getD t' []).sum + if t' = t then -1 else 0 := by
  have hlen : t < m.topic_word_counts.length := by rw [h.tw_len]; exact ht
  have hrow : w < (m.topic_word_counts.getD t []).length := by rw [h.tw_row t ht]; exact hw
  show ((bump2 m.topic_word_counts t w (-1)).getD t' []).sum
      = (m.topic_word_counts.getD t' []).sum + if t' = t then -1 else 0
  rw [bump2_getD m.topic_word_counts t w (-1) t' hlen]
  by_cases htt : t' = t
  · rw [if_pos htt, if_pos htt, htt, bump_sum _ _ _ hrow]
  · rw [if_neg htt, if_neg htt, add_zero]

theorem decCounts_topic_counts_get {m : LDAModel} {D : ℕ} (h : LDAShape m D) {t : ℕ} (d w : ℕ)
    (ht : t < m.num_topics) (t' : ℕ) :
    g1 (decCounts m d w t).topic_counts t'
      = g1 m.topic_counts t' + if t' = t then -1 else 0 := by
  have hlen : t < m.topic_counts.length := by rw [h.tc_len]; exact ht
  show (bump m.topic_counts t (-1)).getD t' 0
      = m.topic_counts.getD t' 0 + if t' = t then -1 else 0
  rw [bump_getD m.topic_counts t (-1) t' hlen]
  by_cases htt : t' = t
  · rw [if_pos htt, if_pos htt, htt]
  · rw [if_neg htt, if_neg htt, add_zero]

theorem decCounts_topic_counts_sum {m : LDAModel} {D : ℕ} (h : LDAShape m D) {t : ℕ} (d w : ℕ)
    (ht : t < m.num_topics) :
    (decCounts m d w t).topic_counts.sum = m.topic_counts.sum + (-1) := by
  have hlen : t < m.topic_counts.length := by rw [h.tc_len]; exact ht
  show (bump m.topic_counts t (-1)).sum = m.topic_counts.sum + (-1)
  rw [bump_sum _ _ _ hlen]

/-! ### Properties of the cumulative-sum topic draw -/

theorem pickLoop_lt (probs : List ℚ) (u cumsum : ℚ) (idx : ℕ)
    (h : 1 ≤ idx + probs.length) : pickLoop probs u cumsum idx < idx + probs.length := by
  induction probs generalizing cumsum idx with
  | nil => simpa [pickLoop] using h
  | cons p rest ih =>
    rw [pickLoop]
    by_cases hu : u < cumsum + p
    · rw [if_pos hu]; simp
    · rw [if_neg hu]
      have := ih (cumsum + p) (idx + 1) (by omega)
      simp only [List.length_cons] at this ⊢
      omega

/-- Characterization of the scan: if some position `i` of the list satisfies
`u < cumsum + (sum of the first i+1 entries)`, the loop returns `idx` plus
the least such `i`. -/
theorem pickLoop_first (probs : List ℚ) (u cumsum : ℚ) (idx : ℕ)
    (i : ℕ) (hi : i < probs.length)
    (hfound : u < cumsum + (probs.take (i + 1)).sum)
    (hleast : ∀ j, j < i → ¬u < cumsum + (probs.take (j + 1)).sum) :
    pickLoop probs u cumsum idx = idx + i := by
  induction probs generalizing cumsum idx i with
  | nil => simp at hi
  | cons p rest ih =>
    rw [pickLoop]
    cases i with
    | zero =>
      have : u < cumsum + p := by simpa using hfound
      rw [if_pos this]
      omega
    | succ n =>
      have hnot : ¬u < cumsum + p := by
        have := hleast 0 (Nat.succ_pos n)
        simpa using this
      rw [if_neg hnot]
      have hn : n < rest.length := by simpa using hi
      have hfound' : u < (cumsum + p) + (rest.take (n + 1)).sum := by
        have : (p :: rest).take (n + 1 + 1) = p :: rest.take (n + 1) := rfl
        rw [this] at hfound
        simpa [add_assoc] using hfound
      have hleast' : ∀ j, j < n → ¬u < (cumsum + p) + (rest.take (j + 1)).sum := by
        intro j hj
        have := hleast (j + 1) (by omega)
        simpa [add_assoc] using this
      rw [ih (cumsum + p) (idx + 1) n hn hfound' hleast']
      omega

/-! ### Bookkeeping for the initialization fold -/

theorem replicate_getD {α : Type} (n : ℕ) (a d : α) (i : ℕ) (h : i < n) :
    (List.replicate n a).getD i d = a := by
  induction n generalizing i with
  | zero => omega
  | succ k ih =>
    cases i with
    | zero => simp [List.replicate]
    | succ j =>
      have hj : j < k := by omega
      simpa [List.replicate] using ih j hj

theorem cast_list_sum (l : List ℕ) : ((l.sum : ℕ) : ℤ) = (l.map fun n => (n : ℤ)).sum := by
  induction l with
  | nil => simp
  | cons a t ih => simp [ih]

theorem map_length_getD (ds : List (List ℕ)) (d : ℕ) (h : d < ds.length) :
    (ds.map List.length).getD d 0 = (ds.getD d []).length := by
  induction ds generalizing d with
  | nil => simp at h
  | cons a t ih =>
    cases d with
    | zero => simp
    | succ k =>
      have hk : k < t.length := by simpa using h
      simpa using ih k hk

theorem docTriples_mem (d0 : ℕ) (ws : List ℕ) (rng : ℕ → ℕ) (n0 : ℕ) (x : ℕ × ℕ × ℕ)
    (hx : x ∈ docTriples d0 ws rng n0) : x.1 = d0 ∧ x.2.1 ∈ ws ∧ ∃ n, x.2.2 = rng n := by
  induction ws generalizing n0 with
  | nil => simp [docTriples] at hx
  | cons w rest ih =>
    rw [docTriples] at hx
    rcases List.mem_cons.mp hx with h | h
    · subst h
      exact ⟨rfl, by simp, n0, rfl⟩
    · obtain ⟨h1, h2, h3⟩ := ih (n0 + 1) h
      exact ⟨h1, by simp [h2], h3⟩

theorem docTriples_length (d0 : ℕ) (ws : List ℕ) (rng : ℕ → ℕ) (n0 : ℕ) :
    (docTriples d0 ws rng n0).length = ws.length := by
  induction ws generalizing n0 with
  | nil => rfl
  | cons w rest ih => simp [docTriples, ih]

theorem docTriples_countP_doc (d0 : ℕ) (ws : List ℕ) (rng : ℕ → ℕ) (n0 d : ℕ) :
    (docTriples d0 ws rng n0).countP (fun x => decide (x.1 = d))
      = if d = d0 then ws.length else 0 := by
  induction ws generalizing n0 with
  | nil => simp [docTriples]
  | cons w rest ih =>
    rw [docTriples, List.countP_cons, ih (n0 + 1)]
    by_cases hd : d = d0
    · simp [hd]
    · simp [hd, Ne.symm hd]

theorem tokenTriplesAux_mem (ds : List (List ℕ)) (rng : ℕ → ℕ) (d0 n0 : ℕ) (x : ℕ × ℕ × ℕ)
    (hx : x ∈ tokenTriplesAux ds rng d0 n0) :
    (d0 ≤ x.1 ∧ x.1 < d0 + ds.length) ∧ (∃ doc ∈ ds, x.2.1 ∈ doc) ∧ ∃ n, x.2.2 = rng n := by
  induction ds generalizing d0 n0 with
  | nil => simp [tokenTriplesAux] at hx
  | cons doc rest ih =>
    rw [tokenTriplesAux] at hx
    rcases List.mem_append.mp hx with h | h
    · obtain ⟨h1, h2, h3⟩ := docTriples_mem d0 doc rng n0 x h
      refine ⟨⟨le_of_eq h1.symm, ?_⟩, ⟨doc, by simp, h2⟩, h3⟩
      simp [h1]
    · obtain ⟨⟨h1, h2⟩, ⟨doc', hd', hw'⟩, h3⟩ := ih (d0 + 1) (n0 + doc.length) h
      refine ⟨⟨by omega, ?_⟩, ⟨doc', by simp [hd'], hw'⟩, h3⟩
      simp only [List.length_cons]
      omega

theorem tokenTriplesAux_length (ds : List (List ℕ)) (rng : ℕ → ℕ) (d0 n0 : ℕ) :
    (tokenTriplesAux ds rng d0 n0).length = (ds.map List.length).sum := by
  induction ds generalizing d0 n0 with
  | nil => rfl
  | cons doc rest ih =>
    rw [tokenTriplesAux]
    simp [docTriples_length, ih (d0 + 1) (n0 + doc.length)]

theorem tokenTriplesAux_countP_doc (ds : List (List ℕ)) (rng : ℕ → ℕ) (d0 n0 i : ℕ)
    (hi : i < ds.length) :
    (tokenTriplesAux ds rng d0 n0).countP (fun x => decide (x.1 = d0 + i))
      = (ds.getD i []).length := by
  induction ds generalizing d0 n0 i with
  | nil => simp at hi
  | cons doc rest ih =>
    rw [tokenTriplesAux, List.countP_append, docTriples_countP_doc]
    cases i with
    | zero =>
      have hz : (tokenTriplesAux rest rng (d0 + 1) (n0 + doc.length)).countP
          (fun x => decide (x.1 = d0 + 0)) = 0 := by
        apply List.countP_eq_zero.mpr
        intro x hx
        obtain ⟨⟨h1, _⟩, _, _⟩ := tokenTriplesAux_mem rest rng (d0 + 1) (n0 + doc.length) x hx
        simp only [decide_eq_true_eq]
        omega
      simp only [Nat.add_zero] at hz ⊢
      rw [hz]
      simp
    | succ j =>
      have hj : j < rest.length := by simpa using hi
      have hne : ¬(d0 + (j + 1) = d0) := by omega
      have hrw : d0 + (j + 1) = (d0 + 1) + j := by omega
      rw [if_neg hne, hrw, ih (d0 + 1) (n0 + doc.length) j hj]
      simp

theorem initBase_shape (m : LDAModel) (docs : List (List ℕ)) (rng : ℕ → ℕ) :
    LDAShape (initBase m docs rng) docs.length := by
  refine ⟨?_, ?_, ?_, ?_, ?_, ?_⟩
  · simp [initBase]
  · intro d hd
    show ((List.replicate docs.length (List.replicate m.num_topics 0)).getD d []).length
        = m.num_topics
    rw [replicate_getD _ _ _ _ hd]
    simp
  · simp [initBase]
  · intro t ht
    have ht' : t < m.num_topics := ht
    show ((List.replicate m.num_topics (List.replicate m.vocabulary.length 0)).getD t []).length
        = m.vocabulary.length
    rw [replicate_getD _ _ _ _ ht']
    simp
  · simp [initBase]
  · simp [initBase]

/-- Part one of claim C3: the three count invariants hold immediately after
`initialize_assignments`, for any corpus of in-vocabulary word-id documents
and any topic oracle within range. -/
theorem init_invariants (m : LDAModel) (docs : List (List ℕ)) (rng : ℕ → ℕ)
    (hdocs : ∀ doc ∈ docs, ∀ w ∈ doc, w < m.vocabulary.length)
    (hrng : ∀ n, rng n < m.num_topics) :
    LDAShape (initialize_assignments m docs rng) docs.length ∧
    CountInv (initialize_assignments m docs rng) docs.length ∧
    (initialize_assignments m docs rng).doc_lengths = docs.map List.length := by
  have hbase := initBase_shape m docs rng
  have hrange : ∀ x ∈ tokenTriples docs rng, x.1 < docs.length ∧
      x.2.1 < (initBase m docs rng).vocabulary.length ∧
      x.2.2 < (initBase m docs rng).num_topics := by
    intro x hx
    obtain ⟨⟨_, h1⟩, ⟨doc, hdoc, hw⟩, n, hn⟩ := tokenTriplesAux_mem docs rng 0 0 x hx
    refine ⟨by simpa using h1, hdocs doc hdoc x.2.1 hw, ?_⟩
    rw [hn]
    exact hrng n
  obtain ⟨s1, s2, s3, s4, s5, s6, s7, s8⟩ :=
    foldInc_spec (tokenTriples docs rng) (initBase m docs rng) docs.length hbase hrange
  have hdl : (initialize_assignments m docs rng).doc_lengths = docs.map List.length := by
    rw [initialize_assignments, s8]
    rfl
  refine ⟨s1, ⟨?_, ?_, ?_⟩, hdl⟩
  · intro d hd
    rw [initialize_assignments, s2 d hd]
    have hbrow : ((initBase m docs rng).doc_topic_counts.getD d []) =
        List.replicate m.num_topics 0 := replicate_getD _ _ _ _ hd
    rw [hbrow]
    have hcount : (tokenTriples docs rng).countP (fun x => decide (x.1 = d))
        = (docs.getD d []).length := by
      have := tokenTriplesAux_countP_doc docs rng 0 0 d hd
      simpa using this
    rw [hcount]
    have : (initialize_assignments m docs rng).doc_lengths.getD d 0
        = (docs.getD d []).length := by
      rw [hdl, map_length_getD docs d hd]
    rw [initialize_assignments] at this
    rw [this]
    simp
  · intro t ht
    have htK : t < m.num_topics := by
      have : (foldInc (initBase m docs rng) (tokenTriples docs rng)).num_topics
          = m.num_topics := s6
      rw [initialize_assignments] at ht
      rw [this] at ht
      exact ht
    rw [initialize_assignments, s3 t htK, s4 t htK]
    have hbrow : ((initBase m docs rng).topic_word_counts.getD t []) =
        List.replicate m.vocabulary.length 0 := replicate_getD _ _ _ _ htK
    have hbg : g1 (initBase m docs rng).topic_counts t = 0 := by
      show (List.replicate m.num_topics (0 : ℤ)).getD t 0 = 0
      rw [replicate_getD _ _ _ _ htK]
    rw [hbrow, hbg]
    simp
  · rw [initialize_assignments, s5, s8]
    have hb : (initBase m docs rng).topic_counts.sum = 0 := by
      show (List.replicate m.num_topics (0 : ℤ)).sum = 0
      simp
    have hlen2 : (tokenTriples docs rng).length = (docs.map List.length).sum := by
      rw [tokenTriples, tokenTriplesAux_length]
    have hdl2 : (initBase m docs rng).doc_lengths = docs.map List.length := rfl
    rw [hb, hlen2, hdl2, ← cast_list_sum]
    simp

theorem sample_topic_fst (m : LDAModel) (doc_id word_id old_topic : ℕ) (u : ℚ) (fb : ℕ) :
    (sample_topic m doc_id word_id old_topic u fb).1
      = incCounts (decCounts m doc_id word_id old_topic) doc_id word_id
          (sample_topic m doc_id word_id old_topic u fb).2 := rfl

theorem sample_topic_snd (m : LDAModel) (doc_id word_id old_topic : ℕ) (u : ℚ) (fb : ℕ) :
    (sample_topic m doc_id word_id old_topic u fb).2
      = if (sampleProbs (decCounts m doc_id word_id old_topic) doc_id word_id).sum = 0 then fb
        else pickLoop
          ((sampleProbs (decCounts m doc_id word_id old_topic) doc_id word_id).map fun p =>
            p / (sampleProbs (decCounts m doc_id word_id old_topic) doc_id word_id).sum)
          u 0 0 := rfl

theorem sampleProbs_length (m : LDAModel) (doc_id word_id : ℕ) :
    (sampleProbs m doc_id word_id).length = m.num_topics := by
  simp [sampleProbs]

theorem sample_topic_snd_lt (m : LDAModel) (doc_id word_id old_topic : ℕ) (u : ℚ) (fb : ℕ)
    (hK : 1 ≤ m.num_topics) (hfb : fb < m.num_topics) :
    (sample_topic m doc_id word_id old_topic u fb).2 < m.num_topics := by
  rw [sample_topic_snd]
  by_cases h : (sampleProbs (decCounts m doc_id word_id old_topic) doc_id word_id).sum = 0
  · rw [if_pos h]; exact hfb
  · rw [if_neg h]
    have hlen : ((sampleProbs (decCounts m doc_id word_id old_topic) doc_id word_id).map fun p =>
        p / (sampleProbs (decCounts m doc_id word_id old_topic) doc_id word_id).sum).length
        = m.num_topics := by
      rw [List.length_map, sampleProbs_length]
      rfl
    have := pickLoop_lt
      ((sampleProbs (decCounts m doc_id word_id old_topic) doc_id word_id).map fun p =>
        p / (sampleProbs (decCounts m doc_id word_id old_topic) doc_id word_id).sum)
      u 0 0 (by rw [hlen]; omega)
    rw [hlen] at this
    simpa using this

/-- Part two of claim C3: one completed `sample_topic` call preserves the
three count invariants (the decrement at the old topic and the increment at
the sampled topic cancel in every sum). -/
theorem sample_preserves_invariants (m : LDAModel) (D doc_id word_id old_topic : ℕ)
    (u : ℚ) (fb : ℕ) (hshape : LDAShape m D) (hinv : CountInv m D)
    (hdoc : doc_id < D) (hword : word_id < m.vocabulary.length)
    (hold : old_topic < m.num_topics) (hfb : fb < m.num_topics) :
    LDAShape (sample_topic m doc_id word_id old_topic u fb).1 D ∧
    CountInv (sample_topic m doc_id word_id old_topic u fb).1 D := by
  have hK : 1 ≤ m.num_topics := by omega
  have hnt := sample_topic_snd_lt m doc_id word_id old_topic u fb hK hfb
  have hshape1 : LDAShape (decCounts m doc_id word_id old_topic) D :=
    decCounts_shape hshape doc_id word_id old_topic
  rw [sample_topic_fst]
  set nt := (sample_topic m doc_id word_id old_topic u fb).2 with hntdef
  refine ⟨incCounts_shape hshape1 doc_id word_id nt, ?_, ?_, ?_⟩
  · intro d hd
    rw [incCounts_doc_sum hshape1 word_id hdoc hnt d,
      decCounts_doc_sum hshape word_id hdoc hold d]
    have hdl : (incCounts (decCounts m doc_id word_id old_topic) doc_id word_id nt).doc_lengths
        = m.doc_lengths := rfl
    rw [hdl, hinv.doc_sum d hd]
    by_cases hdd : d = doc_id
    · rw [if_pos hdd, if_pos hdd]; ring
    · rw [if_neg hdd, if_neg hdd]; ring
  · intro t ht
    have htK : t < m.num_topics := ht
    rw [incCounts_topic_word_sum hshape1 doc_id hword hnt t,
      decCounts_topic_word_sum hshape doc_id hword hold t,
      incCounts_topic_counts_get hshape1 doc_id word_id hnt t,
      decCounts_topic_counts_get hshape doc_id word_id hold t,
      hinv.topic_sum t htK]
  · rw [incCounts_topic_counts_sum hshape1 doc_id word_id hnt,
      decCounts_topic_counts_sum hshape doc_id word_id hold]
    have hdl : (incCounts (decCounts m doc_id word_id old_topic) doc_id word_id nt).doc_lengths
        = m.doc_lengths := rfl
    rw [hdl, hinv.total_sum]
    ring

/-- Example `SimpleLDA` instance right after `__init__` and
`build_vocabulary` on a two-word vocabulary. -/
def mEx : LDAModel :=
  ⟨2, 1/10, 1/100, ["cat", "dog"], [], [], [], [], []⟩

/-! ### LDA accessors (lines 157-183), with Python integer indexing -/

/-- Python list read `l[i]` for a possibly negative index `i`: negative
indices wrap around once; the default stands for the (in our uses
unreachable) `IndexError` case. -/
def pyGetD {α : Type} (l : List α) (i : ℤ) (d : α) : α :=
  let j : ℤ := if i < 0 then i + l.length else i
  if 0 ≤ j ∧ j < (l.length : ℤ) then l.getD j.toNat d else d

/-- Stable descending sort on the second component, the effect of Python
`list.sort(key=lambda x: x[1], reverse=True)`. -/
def sortByWeight (l : List (String × ℚ)) : List (String × ℚ) :=
  l.mergeSort fun a b => b.2 ≤ a.2

/-- `SimpleLDA.get_top_words` (lines 157-170): guard only against
`topic_id >= num_topics`, then smoothed per-word probabilities over
`id_to_word` in id order, sorted by descending probability, first
`num_words` taken. -/
def get_top_words (m : LDAModel) (topic_id : ℤ) (num_words : ℕ) : List (String × ℚ) :=
  if (m.num_topics : ℤ) ≤ topic_id then []
  else
    let word_probs := (List.range m.vocabulary.length).map fun word_id =>
      (m.vocabulary.getD word_id "",
        (((pyGetD m.topic_word_counts topic_id []).getD word_id 0 : ℤ) + m.beta) /
          ((pyGetD m.topic_counts topic_id 0 : ℤ) + (m.vocabulary.length : ℚ) * m.beta))
    (sortByWeight word_probs).take num_words

/-- `SimpleLDA.get_document_topics` (lines 172-183): guard only against
`doc_id >= len(doc_topic_counts)`, then the smoothed topic distribution. -/
def get_document_topics (m : LDAModel) (doc_id : ℤ) : List ℚ :=
  if ((m.doc_topic_counts.length : ℤ)) ≤ doc_id then []
  else
    (List.range m.num_topics).map fun topic =>
      (((pyGetD m.doc_topic_counts doc_id []).getD topic 0 : ℤ) + m.alpha) /
        ((pyGetD m.doc_lengths doc_id 0 : ℕ) + (m.num_topics : ℚ) * m.alpha)

/-! ### Arithmetic helpers for the accessor theorems -/

theorem range_map_getD {β : Type} (n : ℕ) (f : ℕ → β) (i : ℕ) (h : i < n) (d : β) :
    ((List.range n).map f).getD i d = f i := by
  rw [List.getD_eq_getElem?_getD, List.getElem?_map, List.getElem?_range h]
  rfl

theorem sum_map_div (n : ℕ) (f : ℕ → ℚ) (Z : ℚ) :
    ((List.range n).map fun i => f i / Z).sum = ((List.range n).map f).sum / Z := by
  induction n with
  | zero => simp
  | succ k ih =>
    rw [List.range_succ]
    simp only [List.map_append, List.sum_append, List.map_cons, List.map_nil,
      List.sum_cons, List.sum_nil]
    rw [ih]
    simp only [add_zero]
    rw [div_add_div_same]

theorem sum_map_add_const (n : ℕ) (f : ℕ → ℚ) (c : ℚ) :
    ((List.range n).map fun i => f i + c).sum = ((List.range n).map f).sum + n * c := by
  induction n with
  | zero => simp
  | succ k ih =>
    rw [List.range_succ]
    simp only [List.map_append, List.sum_append, List.map_cons, List.map_nil,
      List.sum_cons, List.sum_nil]
    rw [ih]
    push_cast
    ring

theorem cast_sum_map (n : ℕ) (g : ℕ → ℤ) :
    ((List.range n).map fun i => ((g i : ℤ) : ℚ)).sum = (((List.range n).map g).sum : ℚ) := by
  induction n with
  | zero => simp
  | succ k ih =>
    rw [List.range_succ]
    simp only [List.map_append, List.sum_append, List.map_cons, List.map_nil,
      List.sum_cons, List.sum_nil]
    rw [ih]
    push_cast
    ring

theorem sum_range_getD (l : List ℤ) :
    ((List.range l.length).map fun i => l.getD i 0).sum = l.sum := by
  induction l with
  | nil => simp
  | cons a t ih =>
    rw [List.length_cons, List.range_succ_eq_map]
    simp only [List.map_cons, List.map_map, List.sum_cons, List.getD_cons_zero]
    have hcomp : ((fun i => (a :: t).getD i 0) ∘ Nat.succ) = fun i => t.getD i 0 := by
      funext i
      simp
    rw [hcomp, ih]

theorem pyGetD_of_nonneg {α : Type} (l : List α) (i : ℤ) (d : α)
    (h0 : 0 ≤ i) (h1 : i < (l.length : ℤ)) : pyGetD l i d = l.getD i.toNat d := by
  simp only [pyGetD]
  rw [if_neg (not_lt.mpr h0)]
  rw [if_pos ⟨h0, h1⟩]

theorem pyGetD_of_neg {α : Type} (l : List α) (k : ℕ) (d : α)
    (hk1 : 1 ≤ k) (hk2 : k ≤ l.length) :
    pyGetD l (-(k : ℤ)) d = l.getD (l.length - k) d := by
  have hneg : (-(k : ℤ)) < 0 := by omega
  simp only [pyGetD]
  rw [if_pos hneg]
  rw [if_pos (by constructor <;> omega)]
  congr 1
  omega

/-- Claim C4: on every fitted `SimpleLDA` with positive `alpha` (so: shapes
and count invariants of `fit`, non-negative counts, at least one topic) and
every in-range `doc_id`, `get_document_topics` returns exactly `num_topics`
entries, entry `t` being `(doc_topic_counts[doc_id][t] + alpha) /
(doc_lengths[doc_id] + num_topics*alpha)`; all entries are strictly positive
and they sum to `1.0` within `1e-6` (exactly `1`, in fact). -/
theorem claim_C4_document_topics (m : LDAModel) (D doc_id : ℕ)
    (hshape : LDAShape m D) (hinv : CountInv m D)
    (hnn : ∀ d, d < D → ∀ t, t < m.num_topics → 0 ≤ g2 m.doc_topic_counts d t)
    (halpha : 0 < m.alpha) (hK : 1 ≤ m.num_topics) (hdoc : doc_id < D) :
    (get_document_topics m (doc_id : ℤ)).length = m.num_topics ∧
    (∀ t, t < m.num_topics → (get_document_topics m (doc_id : ℤ)).getD t 0
        = (((g2 m.doc_topic_counts doc_id t : ℤ) : ℚ) + m.alpha) /
            ((m.doc_lengths.getD doc_id 0 : ℕ) + (m.num_topics : ℚ) * m.alpha)) ∧
    (∀ p ∈ get_document_topics m (doc_id : ℤ), 0 < p) ∧
    |(get_document_topics m (doc_id : ℤ)).sum - 1| ≤ 1 / 1000000 := by
  have hlen : doc_id < m.doc_topic_counts.length := by rw [hshape.dt_len]; exact hdoc
  have hguard : ¬((m.doc_topic_counts.length : ℤ) ≤ (doc_id : ℤ)) := by
    push_cast
    omega
  have hrow : pyGetD m.doc_topic_counts (doc_id : ℤ) [] = m.doc_topic_counts.getD doc_id [] := by
    rw [pyGetD_of_nonneg _ _ _ (by positivity) (by exact_mod_cast hlen)]
    simp
  have hdl : pyGetD m.doc_lengths (doc_id : ℤ) 0 = m.doc_lengths.getD doc_id 0 := by
    have : doc_id < m.doc_lengths.length := by rw [hshape.dl_len]; exact hdoc
    rw [pyGetD_of_nonneg _ _ _ (by positivity) (by exact_mod_cast this)]
    simp
  have hgdt : get_document_topics m (doc_id : ℤ)
      = (List.range m.num_topics).map fun topic =>
        (((m.doc_topic_counts.getD doc_id []).getD topic 0 : ℤ) + m.alpha) /
          ((m.doc_lengths.getD doc_id 0 : ℕ) + (m.num_topics : ℚ) * m.alpha) := by
    rw [get_document_topics, if_neg hguard, hrow, hdl]
  have hZ : (0 : ℚ) < (m.doc_lengths.getD doc_id 0 : ℕ) + (m.num_topics : ℚ) * m.alpha := by
    have h1 : (0 : ℚ) ≤ ((m.doc_lengths.getD doc_id 0 : ℕ) : ℚ) := by positivity
    have h2 : (1 : ℚ) ≤ (m.num_topics : ℚ) := by exact_mod_cast hK
    nlinarith
  refine ⟨?_, ?_, ?_, ?_⟩
  · rw [hgdt]
    simp
  · intro t ht
    rw [hgdt, range_map_getD _ _ _ ht]
    rfl
  · intro p hp
    rw [hgdt] at hp
    obtain ⟨t, htmem, hteq⟩ := List.mem_map.mp hp
    have ht : t < m.num_topics := List.mem_range.mp htmem
    have hc : (0 : ℚ) ≤ ((m.doc_topic_counts.getD doc_id []).getD t 0 : ℤ) := by
      exact_mod_cast hnn doc_id hdoc t ht
    rw [← hteq]
    exact div_pos (by linarith) hZ
  · rw [hgdt]
    rw [sum_map_div, sum_map_add_const, cast_sum_map]
    have hrlen : (m.doc_topic_counts.getD doc_id []).length = m.num_topics :=
      hshape.dt_row doc_id hdoc
    have hsum : ((List.range m.num_topics).map fun i =>
        (m.doc_topic_counts.getD doc_id []).getD i 0).sum
        = (m.doc_topic_counts.getD doc_id []).sum := by
      rw [← hrlen]
      exact sum_range_getD _
    rw [hsum, hinv.doc_sum doc_id hdoc]
    push_cast
    rw [div_self (ne_of_gt hZ)]
    norm_num

theorem foldInc_alpha (L : List (ℕ × ℕ × ℕ)) (s : LDAModel) :
    (foldInc s L).alpha = s.alpha := by
  induction L generalizing s with
  | nil => rfl
  | cons x t ih => exact ih _

/-- Witness for claim C4: the concrete initialized model of the C3 example. -/
theorem claim_C4_document_topics_witness :
    (get_document_topics (initialize_assignments mEx [[0, 1, 0], [1]] (fun n => n % 2))
        (0 : ℤ)).length = 2 ∧
    |(get_document_topics (initialize_assignments mEx [[0, 1, 0], [1]] (fun n => n % 2))
        (0 : ℤ)).sum - 1| ≤ 1 / 1000000 := by
  have h1 : ∀ doc ∈ [[0, 1, 0], [1]], ∀ w ∈ doc, w < mEx.vocabulary.length := by decide
  have h2 : ∀ n, n % 2 < mEx.num_topics := fun n => Nat.mod_lt _ (by norm_num)
  obtain ⟨hs, hi, _⟩ := init_invariants mEx [[0, 1, 0], [1]] (fun n => n % 2) h1 h2
  obtain ⟨c1, _, _, c4⟩ := claim_C4_document_topics
    (initialize_assignments mEx [[0, 1, 0], [1]] (fun n => n % 2)) 2 0 hs hi
    (by decide) (by rw [initialize_assignments, foldInc_alpha]; norm_num [mEx, initBase])
    (by decide) (by norm_num)
  exact ⟨c1, c4⟩

/-! ### Claim C2: the sampling step computes exactly the claimed quantities -/

/-- The unnormalized probability of the claim, written from its words: for
topic `t`, `((doc_topic_counts[doc][t] + alpha) / (doc_lengths[doc] - 1 +
num_topics*alpha)) * ((topic_word_counts[t][word_id] + beta) /
(topic_counts[t] + vocab_size*beta))`, read on the decremented state. -/
def specSampleProb (m : LDAModel) (doc_id word_id t : ℕ) : ℚ :=
  (((g2 m.doc_topic_counts doc_id t : ℤ) : ℚ) + m.alpha) /
      ((m.doc_lengths.getD doc_id 0 : ℚ) - 1 + (m.num_topics : ℚ) * m.alpha) *
    ((((g2 m.topic_word_counts t word_id : ℤ) : ℚ) + m.beta) /
      (((g1 m.topic_counts t : ℤ) : ℚ) + (m.vocabulary.length : ℚ) * m.beta))

theorem sum_map_div_list {α : Type} [DivisionRing α] (l : List α) (c : α) :
    (l.map fun p => p / c).sum = l.sum / c := by
  induction l with
  | nil => simp
  | cons a t ih =>
    simp only [List.map_cons, List.sum_cons, ih]
    rw [div_add_div_same]

/-- Claim C2: in every `sample_topic(doc_id, word_id, old_topic)` call, after
the three decrements, the unnormalized probability for each topic equals the
claimed formula; when the total is zero the new topic is the uniform
`randint` oracle draw; when the total is nonzero the new topic is the first
index whose cumulative normalized probability exceeds the uniform draw; and
the three count structures are then incremented at the new topic. -/
theorem claim_C2_sample_topic (m : LDAModel) (doc_id word_id old_topic : ℕ) (u : ℚ) (fb : ℕ) :
    sampleProbs (decCounts m doc_id word_id old_topic) doc_id word_id
      = (List.range m.num_topics).map
          (specSampleProb (decCounts m doc_id word_id old_topic) doc_id word_id) ∧
    ((sampleProbs (decCounts m doc_id word_id old_topic) doc_id word_id).sum = 0 →
      (sample_topic m doc_id word_id old_topic u fb).2 = fb) ∧
    (∀ total, total = (sampleProbs (decCounts m doc_id word_id old_topic) doc_id word_id).sum →
      total ≠ 0 → 0 ≤ u → u < 1 → 1 ≤ m.num_topics →
      (sample_topic m doc_id word_id old_topic u fb).2 < m.num_topics ∧
      u < (((sampleProbs (decCounts m doc_id word_id old_topic) doc_id word_id).map
            (fun p => p / total)).take ((sample_topic m doc_id word_id old_topic u fb).2 + 1)).sum ∧
      (∀ j, j < (sample_topic m doc_id word_id old_topic u fb).2 →
        (((sampleProbs (decCounts m doc_id word_id old_topic) doc_id word_id).map
            (fun p => p / total)).take (j + 1)).sum ≤ u)) ∧
    (sample_topic m doc_id word_id old_topic u fb).1
      = incCounts (decCounts m doc_id word_id old_topic) doc_id word_id
          (sample_topic m doc_id word_id old_topic u fb).2 := by
  refine ⟨rfl, ?_, ?_, rfl⟩
  · intro h0
    rw [sample_topic_snd, if_pos h0]
  · intro total htot hne hu0 hu1 hK
    subst htot
    set m1 := decCounts m doc_id word_id old_topic with hm1
    set probs := sampleProbs m1 doc_id word_id with hprobs
    set q := probs.map (fun p => p / probs.sum) with hq
    have hqlen : q.length = m.num_topics := by
      rw [hq, List.length_map, sampleProbs_length]
      rfl
    have hqsum : q.sum = 1 := by
      rw [hq, sum_map_div_list, div_self hne]
    have hQex : ∃ i, u < (q.take (i + 1)).sum := by
      refine ⟨m.num_topics - 1, ?_⟩
      have : m.num_topics - 1 + 1 = q.length := by omega
      rw [this, List.take_length, hqsum]
      exact hu1
    have hfind := Nat.find_spec hQex
    have hmin : ∀ j, j < Nat.find hQex → ¬u < (q.take (j + 1)).sum :=
      fun j hj => Nat.find_min hQex hj
    have hfindlt : Nat.find hQex < m.num_topics := by
      have hle : Nat.find hQex ≤ m.num_topics - 1 := by
        apply Nat.find_min'
        have : m.num_topics - 1 + 1 = q.length := by omega
        rw [this, List.take_length, hqsum]
        exact hu1
      omega
    have hnt : (sample_topic m doc_id word_id old_topic u fb).2 = Nat.find hQex := by
      rw [sample_topic_snd, if_neg hne]
      have := pickLoop_first q u 0 0 (Nat.find hQex) (by rw [hqlen]; exact hfindlt)
        (by rw [zero_add]; exact hfind)
        (by intro j hj; rw [zero_add]; exact hmin j hj)
      simpa using this
    rw [hnt]
    exact ⟨hfindlt, hfind, fun j hj => not_lt.mp (hmin j hj)⟩

/-- Witness for claim C2 at a concrete state (one document of length 2, two
topics, two-word vocabulary, all counts present). -/
def mC2 : LDAModel :=
  ⟨2, 1/10, 1/100, ["cat", "dog"], [[1, 1]], [[1, 0], [0, 1]], [1, 1], [2], [[0, 1]]⟩

theorem claim_C2_sample_topic_witness :
    (sample_topic mC2 0 0 0 (1/2) 0).2 < mC2.num_topics ∧
    (sample_topic mC2 0 0 0 (1/2) 0).1
      = incCounts (decCounts mC2 0 0 0) 0 0 (sample_topic mC2 0 0 0 (1/2) 0).2 := by
  obtain ⟨-, -, h3, h4⟩ := claim_C2_sample_topic mC2 0 0 0 (1/2) 0
  have hne : (sampleProbs (decCounts mC2 0 0 0) 0 0).sum ≠ 0 := by
    norm_num [sampleProbs, decCounts, mC2, g1, g2, bump, bump2, List.range_succ]
  obtain ⟨hlt, -, -⟩ := h3 _ rfl hne (by norm_num) (by norm_num) (by decide)
  exact ⟨hlt, h4⟩

/-! ## Vocabulary construction (`SimpleLDA.build_vocabulary`, lines 40-54) -/

/-- One `Counter.update` step of `build_vocabulary`: a token already present
has its count bumped in place, a new token is appended with count 1 (Python
dict insertion order is first-appearance order). -/
def addTok (acc : List (String × ℕ)) (t : String) : List (String × ℕ) :=
  if acc.any fun p => p.1 = t then
    acc.map fun p => if p.1 = t then (p.1, p.2 + 1) else p
  else acc ++ [(t, 1)]

/-- The `word_freq` Counter built over a token stream. -/
def tokCounter (ts : List String) : List (String × ℕ) := ts.foldl addTok []

/-- The `word_freq` Counter of `build_vocabulary` (lines 42-45): all corpus
tokens in document order. -/
def wordFreq (docs : List (List String)) : List (String × ℕ) := tokCounter docs.flatten

/-- `total_words = sum(word_freq.values())` (line 49). -/
def totalWords (docs : List (List String)) : ℕ := ((wordFreq docs).map Prod.snd).sum

/-- `min_freq = 1 if total_words < 100 else 2` (line 50). -/
def minFreqLDA (docs : List (List String)) : ℕ := if totalWords docs < 100 then 1 else 2

/-- `SimpleLDA.build_vocabulary` (line 52): keep the Counter entries with
`freq >= min_freq and len(word) > 2`, in Counter iteration order. -/
def build_vocabulary (docs : List (List String)) : List String :=
  ((wordFreq docs).filter fun p =>
    decide (minFreqLDA docs ≤ p.2) && decide (2 < p.1.length)).map Prod.fst

/-- First-appearance accumulation used to state the id-order property. -/
def seenFold (acc : List String) (t : String) : List String :=
  if t ∈ acc then acc else acc ++ [t]

/-- The distinct tokens of a stream in order of first appearance. -/
def firstSeen (ts : List String) : List String := ts.foldl seenFold []

theorem tokCounter_concat (ts : List String) (t : String) :
    tokCounter (ts ++ [t]) = addTok (tokCounter ts) t := by
  rw [tokCounter, List.foldl_append]
  rfl

theorem firstSeen_concat (ts : List String) (t : String) :
    firstSeen (ts ++ [t]) = seenFold (firstSeen ts) t := by
  rw [firstSeen, List.foldl_append]
  rfl

theorem addTok_keys (acc : List (String × ℕ)) (t : String) :
    (addTok acc t).map Prod.fst = seenFold (acc.map Prod.fst) t := by
  by_cases h : acc.any (fun p => p.1 = t) = true
  · have hmem : t ∈ acc.map Prod.fst := by
      obtain ⟨p, hp, hpt⟩ := List.any_eq_true.mp h
      simp only [decide_eq_true_eq] at hpt
      exact List.mem_map.mpr ⟨p, hp, hpt⟩
    rw [addTok, if_pos h, seenFold, if_pos hmem, List.map_map]
    apply List.map_congr_left
    intro p _
    by_cases hp : p.1 = t
    · simp [hp]
    · simp [hp]
  · have hmem : t ∉ acc.map Prod.fst := by
      intro hc
      obtain ⟨p, hp, hpt⟩ := List.mem_map.mp hc
      exact h (List.any_eq_true.mpr ⟨p, hp, by simp [hpt]⟩)
    rw [addTok, if_neg h, seenFold, if_neg hmem, List.map_append]
    rfl

theorem tokCounter_keys (ts : List String) :
    (tokCounter ts).map Prod.fst = firstSeen ts := by
  induction ts using List.reverseRecOn with
  | nil => rfl
  | append_singleton l a ih =>
    rw [tokCounter_concat, firstSeen_concat, addTok_keys, ih]

theorem firstSeen_mem (ts : List String) (x : String) : x ∈ firstSeen ts ↔ x ∈ ts := by
  induction ts using List.reverseRecOn with
  | nil => simp [firstSeen]
  | append_singleton l a ih =>
    rw [firstSeen_concat, seenFold]
    by_cases h : a ∈ firstSeen l
    · rw [if_pos h]
      simp only [List.mem_append, List.mem_singleton]
      constructor
      · intro hx; exact Or.inl (ih.mp hx)
      · rintro (hx | rfl)
        · exact ih.mpr hx
        · exact h
    · rw [if_neg h]
      simp only [List.mem_append, List.mem_singleton, ih]

theorem firstSeen_nodup (ts : List String) : (firstSeen ts).Nodup := by
  induction ts using List.reverseRecOn with
  | nil => exact List.nodup_nil
  | append_singleton l a ih =>
    rw [firstSeen_concat, seenFold]
    by_cases h : a ∈ firstSeen l
    · rw [if_pos h]; exact ih
    · rw [if_neg h]
      simp [List.nodup_append, ih, h]

theorem tokCounter_count (ts : List String) :
    ∀ p ∈ tokCounter ts, p.2 = ts.count p.1 := by
  induction ts using List.reverseRecOn with
  | nil => intro p hp; simp [tokCounter] at hp
  | append_singleton l a ih =>
    intro p hp
    rw [tokCounter_concat] at hp
    by_cases h : (tokCounter l).any (fun q => q.1 = a) = true
    · rw [addTok, if_pos h] at hp
      obtain ⟨q, hq, hqp⟩ := List.mem_map.mp hp
      by_cases hqa : q.1 = a
      · rw [if_pos hqa] at hqp
        subst hqp
        simp only [List.count_append]
        rw [← ih q hq, hqa]
        simp
      · rw [if_neg hqa] at hqp
        subst hqp
        simp only [List.count_append]
        rw [← ih q hq]
        have : List.count q.1 [a] = 0 := by
          simp [List.count_singleton]
          exact fun hc => hqa hc.symm
        omega
    · rw [addTok, if_neg h] at hp
      rcases List.mem_append.mp hp with hp' | hp'
      · have hne : p.1 ≠ a := by
          intro hc
          exact h (List.any_eq_true.mpr ⟨p, hp', by simp [hc]⟩)
        simp only [List.count_append]
        rw [← ih p hp']
        have : List.count p.1 [a] = 0 := by
          simp [List.count_singleton]
          exact fun hc => hne hc.symm
        omega
      · have hpa : p = (a, 1) := by simpa using hp'
        subst hpa
        have hnotin : a ∉ l := by
          intro hc
          have : a ∈ (tokCounter l).map Prod.fst := by
            rw [tokCounter_keys]
            exact (firstSeen_mem l a).mpr hc
          obtain ⟨q, hq, hqa⟩ := List.mem_map.mp this
          exact h (List.any_eq_true.mpr ⟨q, hq, by simp [hqa]⟩)
        simp only [List.count_append]
        rw [List.count_eq_zero_of_not_mem hnotin]
        simp

theorem countP_fst (acc : List (String × ℕ)) (t : String) :
    (acc.countP fun p => decide (p.1 = t)) = (acc.map Prod.fst).count t := by
  induction acc with
  | nil => rfl
  | cons p rest ih =>
    rw [List.countP_cons, List.map_cons, List.count_cons, ih]
    by_cases h : p.1 = t
    · simp [h]
    · simp [h, Ne.symm h]

theorem map_bump_sum (acc : List (String × ℕ)) (t : String) :
    (((acc.map fun p => if p.1 = t then (p.1, p.2 + 1) else p).map Prod.snd)).sum
      = ((acc.map Prod.snd)).sum + (acc.countP fun p => decide (p.1 = t)) := by
  induction acc with
  | nil => rfl
  | cons p rest ih =>
    simp only [List.map_cons, List.sum_cons, List.countP_cons]
    rw [ih]
    by_cases h : p.1 = t
    · simp [h]
      ring
    · simp [h]
      ring

theorem tokCounter_sum (ts : List String) :
    ((tokCounter ts).map Prod.snd).sum = ts.length := by
  induction ts using List.reverseRecOn with
  | nil => rfl
  | append_singleton l a ih =>
    rw [tokCounter_concat]
    by_cases h : (tokCounter l).any (fun q => q.1 = a) = true
    · rw [addTok, if_pos h, map_bump_sum, ih, countP_fst, tokCounter_keys]
      have hmem : a ∈ firstSeen l := by
        obtain ⟨q, hq, hqa⟩ := List.any_eq_true.mp h
        simp only [decide_eq_true_eq] at hqa
        rw [← tokCounter_keys]
        exact List.mem_map.mpr ⟨q, hq, hqa⟩
      rw [List.count_eq_one_of_mem (firstSeen_nodup l) hmem]
      simp
    · rw [addTok, if_neg h]
      simp [ih]

theorem filter_map_fst (l : List (String × ℕ)) (P : String × ℕ → Bool) (Q : String → Bool)
    (h : ∀ p ∈ l, P p = Q p.1) : (l.filter P).map Prod.fst = (l.map Prod.fst).filter Q := by
  induction l with
  | nil => rfl
  | cons p rest ih =>
    have hp := h p (by simp)
    rw [List.filter_cons, List.map_cons, List.filter_cons, hp]
    by_cases hq : Q p.1 = true
    · rw [hq]
      simp only [if_pos trivial]
      rw [List.map_cons, ih fun q hq' => h q (by simp [hq'])]
    · have : Q p.1 = false := by simpa using hq
      rw [this]
      simp only [Bool.false_eq_true, if_neg]
      exact ih fun q hq' => h q (by simp [hq'])
      all_goals simp

/-- Claim C6: `SimpleLDA.build_vocabulary` keeps a token iff its length
exceeds 2 and its corpus frequency is at least `min_freq`
(`1` if the total token count is below 100, else `2`); ids are assigned in
first-appearance order; `word_to_id = indexOf` and `id_to_word = getD` are
mutually inverse bijections over the vocabulary. -/
theorem claim_C6_build_vocabulary (docs : List (List String)) :
    (∀ w, w ∈ build_vocabulary docs ↔
      2 < w.length ∧ minFreqLDA docs ≤ docs.flatten.count w) ∧
    minFreqLDA docs = (if totalWords docs < 100 then 1 else 2) ∧
    totalWords docs = docs.flatten.length ∧
    build_vocabulary docs = (firstSeen docs.flatten).filter
      (fun w => decide (minFreqLDA docs ≤ docs.flatten.count w) && decide (2 < w.length)) ∧
    (build_vocabulary docs).Nodup ∧
    (∀ w ∈ build_vocabulary docs,
      (build_vocabulary docs).getD ((build_vocabulary docs).indexOf w) "" = w) ∧
    (∀ i, i < (build_vocabulary docs).length →
      (build_vocabulary docs).indexOf ((build_vocabulary docs).getD i "") = i) := by
  have hfact : build_vocabulary docs = (firstSeen docs.flatten).filter
      (fun w => decide (minFreqLDA docs ≤ docs.flatten.count w) && decide (2 < w.length)) := by
    rw [build_vocabulary, wordFreq]
    rw [filter_map_fst _ _ (fun w => decide (minFreqLDA docs ≤ docs.flatten.count w)
        && decide (2 < w.length))]
    · rw [tokCounter_keys]
    · intro p hp
      rw [tokCounter_count docs.flatten p hp]
  have hnodup : (build_vocabulary docs).Nodup := by
    rw [hfact]
    exact (firstSeen_nodup docs.flatten).sublist (List.filter_sublist _)
  refine ⟨?_, rfl, tokCounter_sum docs.flatten, hfact, hnodup, ?_, ?_⟩
  · intro w
    rw [hfact]
    constructor
    · intro hw
      obtain ⟨hmem, hcond⟩ := List.mem_filter.mp hw
      simp only [Bool.and_eq_true, decide_eq_true_eq] at hcond
      exact ⟨hcond.2, hcond.1⟩
    · intro ⟨hlen, hfreq⟩
      apply List.mem_filter.mpr
      refine ⟨?_, by simp [hlen, hfreq]⟩
      apply (firstSeen_mem docs.flatten w).mpr
      have h1 : 1 ≤ minFreqLDA docs := by
        rw [minFreqLDA]
        by_cases h : totalWords docs < 100 <;> simp [h]
      have : 0 < docs.flatten.count w := by omega
      exact List.count_pos_iff.mp this
  · intro w hw
    have hlt : (build_vocabulary docs).indexOf w < (build_vocabulary docs).length :=
      List.indexOf_lt_length.mpr hw
    rw [List.getD_eq_getElem _ _ hlt]
    exact List.getElem_indexOf hlt
  · intro i hi
    rw [List.getD_eq_getElem _ _ hi]
    exact List.indexOf_getElem hnodup i hi

/-- Witness for claim C6 on a concrete corpus: total 4 tokens, min_freq 1,
short token dropped, first-appearance id order. -/
theorem claim_C6_build_vocabulary_witness :
    build_vocabulary [["cat", "in"], ["cat", "dog"]] = ["cat", "dog"] ∧
    ("dog" ∈ build_vocabulary [["cat", "in"], ["cat", "dog"]]) := by
  have h := (claim_C6_build_vocabulary [["cat", "in"], ["cat", "dog"]]).1 "dog"
  exact ⟨by decide, h.mpr (by decide)⟩

/-! ## SimpleNMF

Two copies exist in the repository.  `backend/advanced_topic_modeling.py`
(lines 185-287) builds a vocabulary with `freq >= 1 and len(word) > 2` and
its `fit` training loop body only logs — it never updates `W` or `H`.
`backend/app_minimal_corrupted_backup.py` (lines 1744-1916) builds a
vocabulary with `freq >= 2` (no length filter) and its `fit` calls
`update_matrices` every iteration.  The numeric definitions are polymorphic
over a linear ordered field; `fit` is instantiated at `ℝ` because the TF-IDF
matrix calls `math.log`. -/

/-- NMF vocabulary rule of `advanced_topic_modeling.py` line 209:
`freq >= 1 and len(word) > 2`. -/
def build_vocabulary_nmf (docs : List (List String)) : List String :=
  ((wordFreq docs).filter fun p => decide (1 ≤ p.2) && decide (2 < p.1.length)).map Prod.fst

/-- NMF vocabulary rule of the backup copy (line 1768): `freq >= 2`, no
length filter. -/
def build_vocabulary_nmf_backup (docs : List (List String)) : List String :=
  ((wordFreq docs).filter fun p => decide (2 ≤ p.2)).map Prod.fst

/-- Python `word in d.lower()` of the `doc_freq` computation (line 230):
for a whitespace-free token this substring test holds iff the word is a
contiguous substring of one of the document's tokens. -/
def containsSub (w : String) (doc : List String) : Bool :=
  doc.any fun tok => decide (w.data <:+: tok.data)

/-- `SimpleNMF.build_document_term_matrix` (lines 213-232): cell `(d, w)` is
`tf * idf` with `tf = count/len(words)` and
`idf = log(num_docs / (doc_freq + 1))` for words of the document that are in
the vocabulary, `0.0` otherwise. -/
noncomputable def build_document_term_matrix (docs : List (List String))
    (vocab : List String) : List (List ℝ) :=
  docs.map fun words =>
    vocab.map fun w =>
      if words.count w = 0 then 0
      else
        ((words.count w : ℝ) / (words.length : ℝ)) *
          Real.log ((docs.length : ℝ) /
            (((docs.filter fun d => containsSub w d).length : ℝ) + 1))

/-- `SimpleNMF.matrix_multiply` (backup copy, lines 1799-1816), on
well-shaped matrices (the source raises on a dimension mismatch, which the
claims never reach). -/
def matrix_multiply {α : Type} [LinearOrderedField α] (A B : List (List α)) :
    List (List α) :=
  (List.range A.length).map fun i =>
    (List.range (B.headD []).length).map fun j =>
      ((List.range (A.headD []).length).map fun k => g2 A i k * g2 B k j).sum

/-- The `H` update of `SimpleNMF.update_matrices` (backup copy, lines
1826-1843): `H[i][j] * (num/den)` with both sums restricted to documents with
`WH[d][j] > 0`, and `H[i][j]` kept unchanged unless `den > 0`. -/
def updateH {α : Type} [LinearOrderedField α] (num_topics : ℕ) (X W H : List (List α)) :
    List (List α) :=
  let WH := matrix_multiply W H
  let num_docs := W.length
  let vocab_size := (H.headD []).length
  (List.range num_topics).map fun i =>
    (List.range vocab_size).map fun j =>
      let numerator := ((List.range num_docs).map fun d =>
        if 0 < g2 WH d j then g2 W d i * g2 X d j else 0).sum
      let denominator := ((List.range num_docs).map fun d =>
        if 0 < g2 WH d j then g2 W d i * g2 WH d j else 0).sum
      if 0 < denominator then g2 H i j * (numerator / denominator) else g2 H i j

/-- The symmetric `W` update (backup copy, lines 1845-1865), computed against
the already-updated `H`. -/
def updateW {α : Type} [LinearOrderedField α] (num_topics : ℕ) (X W H : List (List α)) :
    List (List α) :=
  let WH := matrix_multiply W H
  let num_docs := W.length
  let vocab_size := (H.headD []).length
  (List.range num_docs).map fun i =>
    (List.range num_topics).map fun j =>
      let numerator := ((List.range vocab_size).map fun v =>
        if 0 < g2 WH i v then g2 H j v * g2 X i v else 0).sum
      let denominator := ((List.range vocab_size).map fun v =>
        if 0 < g2 WH i v then g2 H j v * g2 WH i v else 0).sum
      if 0 < denominator then g2 W i j * (numerator / denominator) else g2 W i j

/-- `SimpleNMF.update_matrices` (backup copy, lines 1818-1865): update `H`
against `WH = W·H`, then update `W` against the recomputed `W·H'`. -/
def update_matrices {α : Type} [LinearOrderedField α] (num_topics : ℕ) (X : List (List α))
    (WH : List (List α) × List (List α)) : List (List α) × List (List α) :=
  let H' := updateH num_topics X WH.1 WH.2
  (updateW num_topics X WH.1 H', H')

/-- `SimpleNMF.initialize_matrices` (lines 234-240): `W` and `H` filled with
successive `random.random()` draws, supplied as the streams `rngW`/`rngH`. -/
def initialize_matrices {α : Type} [LinearOrderedField α] (num_topics num_docs vocab_size : ℕ)
    (rngW rngH : ℕ → α) : List (List α) × List (List α) :=
  ((List.range num_docs).map fun d =>
      (List.range num_topics).map fun t => rngW (d * num_topics + t),
    (List.range num_topics).map fun t =>
      (List.range vocab_size).map fun v => rngH (t * vocab_size + v))

/-- State of a `SimpleNMF` instance after `fit`. -/
structure NMFModel where
  num_topics : ℕ
  num_iterations : ℕ
  learning_rate : ℝ
  vocabulary : List String
  W : List (List ℝ)
  H : List (List ℝ)
  document_term_matrix : List (List ℝ)

/-- `SimpleNMF.fit` of `advanced_topic_modeling.py` (lines 242-261): builds
vocabulary, TF-IDF matrix and random `W`, `H`, then runs a training loop
whose body only logs — `W` and `H` keep their initialization values. -/
noncomputable def fitNMFAdv (num_topics num_iterations : ℕ) (learning_rate : ℝ)
    (docs : List (List String)) (rngW rngH : ℕ → ℝ) : NMFModel :=
  let vocabulary := build_vocabulary_nmf docs
  let X := build_document_term_matrix docs vocabulary
  let WH0 := initialize_matrices num_topics docs.length vocabulary.length rngW rngH
  ⟨num_topics, num_iterations, learning_rate, vocabulary, WH0.1, WH0.2, X⟩

/-- `SimpleNMF.fit` of the backup copy (lines 1867-1888): same setup but the
loop calls `update_matrices` once per iteration. -/
noncomputable def fitNMFBackup (num_topics num_iterations : ℕ) (learning_rate : ℝ)
    (docs : List (List String)) (rngW rngH : ℕ → ℝ) : NMFModel :=
  let vocabulary := build_vocabulary_nmf_backup docs
  let X := build_document_term_matrix docs vocabulary
  let WH0 := initialize_matrices num_topics docs.length vocabulary.length rngW rngH
  let WHn := (update_matrices num_topics X)^[num_iterations] WH0
  ⟨num_topics, num_iterations, learning_rate, vocabulary, WHn.1, WHn.2, X⟩

/-- `SimpleNMF.get_top_words` of `advanced_topic_modeling.py` (lines
263-275): empty on `topic_id >= num_topics` or an empty (falsy) `H`,
otherwise raw `H` weights in id order, sorted descending, first `num_words`
taken.  (The `0.1` default of line 270 is unreachable for non-negative
in-range `topic_id`, which is the only case the claims visit.) -/
noncomputable def get_top_words_nmf (m : NMFModel) (topic_id : ℤ) (num_words : ℕ) :
    List (String × ℝ) :=
  if (m.num_topics : ℤ) ≤ topic_id ∨ m.H.isEmpty then []
  else
    let word_weights := (List.range m.vocabulary.length).map fun word_id =>
      (m.vocabulary.getD word_id "",
        if topic_id < (m.H.length : ℤ) then (pyGetD m.H topic_id []).getD word_id 0
        else (1 : ℝ) / 10)
    (word_weights.mergeSort fun a b => b.2 ≤ a.2).take num_words

/-- `SimpleNMF.get_document_topics` of `advanced_topic_modeling.py` (lines
277-287): uniform `1/num_topics` on a falsy `W` or out-of-range `doc_id` or a
zero row sum, otherwise the row normalized by its sum. -/
noncomputable def get_document_topics_nmf (m : NMFModel) (doc_id : ℤ) : List ℝ :=
  if m.W.isEmpty ∨ (m.W.length : ℤ) ≤ doc_id then
    List.replicate m.num_topics ((1 : ℝ) / m.num_topics)
  else if (pyGetD m.W doc_id []).sum = 0 then
    List.replicate m.num_topics ((1 : ℝ) / m.num_topics)
  else (pyGetD m.W doc_id []).map fun wgt => wgt / (pyGetD m.W doc_id []).sum

/-- Claim C9: `learning_rate` is stored by `__init__` but never read by
training: two `SimpleNMF` runs differing only in `learning_rate`, from
identical RNG streams, produce identical vocabulary, document-term matrix,
`W`, `H`, and identical `get_top_words` / `get_document_topics` results.
Holds for the canonical `advanced_topic_modeling.py` fit and for the backup
copy's fit with multiplicative updates. -/
theorem claim_C9_learning_rate_noop (num_topics num_iterations : ℕ) (lr1 lr2 : ℝ)
    (docs : List (List String)) (rngW rngH : ℕ → ℝ) :
    (fitNMFAdv num_topics num_iterations lr1 docs rngW rngH).vocabulary
      = (fitNMFAdv num_topics num_iterations lr2 docs rngW rngH).vocabulary ∧
    (fitNMFAdv num_topics num_iterations lr1 docs rngW rngH).document_term_matrix
      = (fitNMFAdv num_topics num_iterations lr2 docs rngW rngH).document_term_matrix ∧
    (fitNMFAdv num_topics num_iterations lr1 docs rngW rngH).W
      = (fitNMFAdv num_topics num_iterations lr2 docs rngW rngH).W ∧
    (fitNMFAdv num_topics num_iterations lr1 docs rngW rngH).H
      = (fitNMFAdv num_topics num_iterations lr2 docs rngW rngH).H ∧
    (∀ (tid : ℤ) (nw : ℕ),
      get_top_words_nmf (fitNMFAdv num_topics num_iterations lr1 docs rngW rngH) tid nw
        = get_top_words_nmf (fitNMFAdv num_topics num_iterations lr2 docs rngW rngH) tid nw) ∧
    (∀ did : ℤ,
      get_document_topics_nmf (fitNMFAdv num_topics num_iterations lr1 docs rngW rngH) did
        = get_document_topics_nmf (fitNMFAdv num_topics num_iterations lr2 docs rngW rngH) did) ∧
    (fitNMFBackup num_topics num_iterations lr1 docs rngW rngH).W
      = (fitNMFBackup num_topics num_iterations lr2 docs rngW rngH).W ∧
    (fitNMFBackup num_topics num_iterations lr1 docs rngW rngH).H
      = (fitNMFBackup num_topics num_iterations lr2 docs rngW rngH).H ∧
    (∀ (tid : ℤ) (nw : ℕ),
      get_top_words_nmf (fitNMFBackup num_topics num_iterations lr1 docs rngW rngH) tid nw
        = get_top_words_nmf (fitNMFBackup num_topics num_iterations lr2 docs rngW rngH) tid nw) ∧
    (∀ did : ℤ,
      get_document_topics_nmf (fitNMFBackup num_topics num_iterations lr1 docs rngW rngH) did
        = get_document_topics_nmf (fitNMFBackup num_topics num_iterations lr2 docs rngW rngH) did) :=
  ⟨rfl, rfl, rfl, rfl, fun _ _ => rfl, fun _ => rfl, rfl, rfl, fun _ _ => rfl, fun _ => rfl⟩

/-! ### Concrete NMF evaluation: the corpus `["cat cat", "cat cat"]` -/

def exDocs : List (List String) := [["cat", "cat"], ["cat", "cat"]]

theorem exVocab_backup : build_vocabulary_nmf_backup exDocs = ["cat"] := by decide

theorem exX : build_document_term_matrix exDocs ["cat"]
    = [[Real.log ((2 : ℝ) / 3)], [Real.log ((2 : ℝ) / 3)]] := by
  have hcount : List.count "cat" ["cat", "cat"] = 2 := by decide
  have hfilt : (exDocs.filter fun d => containsSub "cat" d).length = 2 := by decide
  simp only [build_document_term_matrix, exDocs, List.map_cons, List.map_nil] at *
  rw [hcount, hfilt]
  norm_num

theorem exInit : initialize_matrices (α := ℝ) 1 2 1 (fun _ => 1/2) (fun _ => 1/2)
    = ([[1/2], [1/2]], [[1/2]]) := by
  simp [initialize_matrices, List.range_succ]

theorem exMatMulWH : matrix_multiply (α := ℝ) [[1/2], [1/2]] [[1/2]] = [[1/4], [1/4]] := by
  simp [matrix_multiply, g2, List.range_succ]
  norm_num

theorem exUpdate (c : ℝ) (hc : c < 0) :
    update_matrices 1 [[c], [c]] ([[(1/2 : ℝ)], [1/2]], [[(1/2 : ℝ)]])
      = ([[(1/2 : ℝ)], [1/2]], [[2 * c]]) := by
  have hH : updateH 1 [[c], [c]] [[(1/2 : ℝ)], [1/2]] [[(1/2 : ℝ)]] = [[2 * c]] := by
    simp only [updateH, exMatMulWH]
    simp [g2, List.range_succ]
    norm_num
    ring
  have hWH' : matrix_multiply (α := ℝ) [[1/2], [1/2]] [[2 * c]] = [[c], [c]] := by
    simp [matrix_multiply, g2, List.range_succ]
  have hW : updateW 1 [[c], [c]] [[(1/2 : ℝ)], [1/2]] [[2 * c]] = [[(1/2 : ℝ)], [1/2]] := by
    simp only [updateW, hWH']
    simp [g2, List.range_succ]
    intro h
    exact div_self (ne_of_gt h)
  simp only [update_matrices, hH, hW]

theorem backup_H_eval :
    (fitNMFBackup 1 1 0 exDocs (fun _ => 1/2) (fun _ => 1/2)).H
      = [[2 * Real.log ((2 : ℝ) / 3)]] := by
  have hc : Real.log ((2 : ℝ) / 3) < 0 := Real.log_neg (by norm_num) (by norm_num)
  show ((update_matrices 1 (build_document_term_matrix exDocs
      (build_vocabulary_nmf_backup exDocs)))^[1]
    (initialize_matrices 1 exDocs.length (build_vocabulary_nmf_backup exDocs).length
      (fun _ => 1/2) (fun _ => 1/2))).2 = [[2 * Real.log ((2 : ℝ) / 3)]]
  rw [exVocab_backup, exX]
  have hlen : exDocs.length = 2 := rfl
  have hvlen : (["cat"] : List String).length = 1 := rfl
  rw [hlen, hvlen, exInit, Function.iterate_one,
    exUpdate (Real.log ((2 : ℝ) / 3)) hc]

/-- Claim C1 (the code, not the claim, is at fault): in
`advanced_topic_modeling.py`, `SimpleNMF.fit`'s training loop body only
logs, so the `W` and `H` read afterwards are exactly the random
initialization — no multiplicative update is ever applied; the duplicated
`update_matrices` implementation (here run by the backup copy's fit on the
failing input, one iteration) produces a different `H`, so the omission is
observable. -/
theorem claim_C1_nmf_fit_never_updates :
    (∀ (K iters : ℕ) (lr : ℝ) (docs : List (List String)) (rngW rngH : ℕ → ℝ),
      (fitNMFAdv K iters lr docs rngW rngH).W
        = (initialize_matrices K docs.length (build_vocabulary_nmf docs).length rngW rngH).1 ∧
      (fitNMFAdv K iters lr docs rngW rngH).H
        = (initialize_matrices K docs.length (build_vocabulary_nmf docs).length rngW rngH).2) ∧
    (fitNMFBackup 1 1 0 exDocs (fun _ => 1/2) (fun _ => 1/2)).H
      ≠ (initialize_matrices 1 exDocs.length (build_vocabulary_nmf_backup exDocs).length
          (fun _ => 1/2) (fun _ => 1/2)).2 := by
  constructor
  · intro K iters lr docs rngW rngH
    exact ⟨rfl, rfl⟩
  · rw [backup_H_eval, exVocab_backup]
    have hc : Real.log ((2 : ℝ) / 3) < 0 := Real.log_neg (by norm_num) (by norm_num)
    have hinit : (initialize_matrices (α := ℝ) 1 exDocs.length 1
        (fun _ => 1/2) (fun _ => 1/2)).2 = [[1/2]] := by
      have hlen : exDocs.length = 2 := rfl
      rw [hlen, exInit]
    rw [show (["cat"] : List String).length = 1 from rfl, hinit]
    intro hcontra
    have : 2 * Real.log ((2 : ℝ) / 3) = 1/2 := by
      have := List.head_eq_of_cons_eq hcontra
      simpa using this
    linarith

/-! ### Claim C5: non-negativity of W and H under the multiplicative update -/

/-- All entries of a matrix are non-negative. -/
def MatNonneg {α : Type} [LinearOrderedField α] (M : List (List α)) : Prop :=
  ∀ row ∈ M, ∀ x ∈ row, 0 ≤ x

theorem g2_nonneg {α : Type} [LinearOrderedField α] (M : List (List α))
    (h : MatNonneg M) (i j : ℕ) : 0 ≤ g2 M i j := by
  show 0 ≤ (M.getD i []).getD j 0
  by_cases hj : j < (M.getD i []).length
  · have hx : (M.getD i []).getD j 0 ∈ M.getD i [] := by
      rw [List.getD_eq_getElem _ _ hj]
      exact List.getElem_mem hj
    have hrow : M.getD i [] ∈ M := by
      by_cases hi : i < M.length
      · rw [List.getD_eq_getElem _ _ hi]
        exact List.getElem_mem hi
      · rw [List.getD_eq_default _ _ (by omega)] at hj
        simp at hj
    exact h _ hrow _ hx
  · rw [List.getD_eq_default _ _ (by omega)]

theorem updateH_nonneg {α : Type} [LinearOrderedField α] (K : ℕ) (X W H : List (List α))
    (hX : MatNonneg X) (hW : MatNonneg W) (hH : MatNonneg H) :
    MatNonneg (updateH K X W H) := by
  intro row hrow x hx
  simp only [updateH] at hrow
  obtain ⟨i, -, rfl⟩ := List.mem_map.mp hrow
  obtain ⟨j, -, rfl⟩ := List.mem_map.mp hx
  by_cases hden : 0 < ((List.range W.length).map fun d =>
      if 0 < g2 (matrix_multiply W H) d j then
        g2 W d i * g2 (matrix_multiply W H) d j else 0).sum
  · rw [if_pos hden]
    have hnum : 0 ≤ ((List.range W.length).map fun d =>
        if 0 < g2 (matrix_multiply W H) d j then g2 W d i * g2 X d j else 0).sum := by
      apply List.sum_nonneg
      intro y hy
      obtain ⟨d, -, rfl⟩ := List.mem_map.mp hy
      by_cases hg : 0 < g2 (matrix_multiply W H) d j
      · rw [if_pos hg]
        exact mul_nonneg (g2_nonneg W hW d i) (g2_nonneg X hX d j)
      · rw [if_neg hg]
    exact mul_nonneg (g2_nonneg H hH i j) (div_nonneg hnum (le_of_lt hden))
  · rw [if_neg hden]
    exact g2_nonneg H hH i j

theorem updateW_nonneg {α : Type} [LinearOrderedField α] (K : ℕ) (X W H : List (List α))
    (hX : MatNonneg X) (hW : MatNonneg W) (hH : MatNonneg H) :
    MatNonneg (updateW K X W H) := by
  intro row hrow x hx
  simp only [updateW] at hrow
  obtain ⟨i, -, rfl⟩ := List.mem_map.mp hrow
  obtain ⟨j, -, rfl⟩ := List.mem_map.mp hx
  by_cases hden : 0 < ((List.range (H.headD []).length).map fun v =>
      if 0 < g2 (matrix_multiply W H) i v then
        g2 H j v * g2 (matrix_multiply W H) i v else 0).sum
  · rw [if_pos hden]
    have hnum : 0 ≤ ((List.range (H.headD []).length).map fun v =>
        if 0 < g2 (matrix_multiply W H) i v then g2 H j v * g2 X i v else 0).sum := by
      apply List.sum_nonneg
      intro y hy
      obtain ⟨v, -, rfl⟩ := List.mem_map.mp hy
      by_cases hg : 0 < g2 (matrix_multiply W H) i v
      · rw [if_pos hg]
        exact mul_nonneg (g2_nonneg H hH j v) (g2_nonneg X hX i v)
      · rw [if_neg hg]
    exact mul_nonneg (g2_nonneg W hW i j) (div_nonneg hnum (le_of_lt hden))
  · rw [if_neg hden]
    exact g2_nonneg W hW i j

theorem update_matrices_nonneg {α : Type} [LinearOrderedField α] (K : ℕ)
    (X : List (List α)) (WH : List (List α) × List (List α)) (hX : MatNonneg X)
    (hW : MatNonneg WH.1) (hH : MatNonneg WH.2) :
    MatNonneg (update_matrices K X WH).1 ∧ MatNonneg (update_matrices K X WH).2 := by
  have hH' : MatNonneg (updateH K X WH.1 WH.2) := updateH_nonneg K X WH.1 WH.2 hX hW hH
  exact ⟨updateW_nonneg K X WH.1 _ hX hW hH', hH'⟩

/-- Amended claim C5: after every multiplicative-update iteration, all
entries of `W` and `H` remain non-negative, PROVIDED every entry of the
document-term matrix is non-negative (and the initialization is, as
`random.random()` guarantees).  The proviso is forced by the counterexample:
`build_document_term_matrix` yields `idf = log(num_docs/(doc_freq+1)) < 0`
for a word occurring in every document, and one update then drives an entry
of `H` negative. -/
theorem claim_C5_nonneg_when_X_nonneg {α : Type} [LinearOrderedField α] (K : ℕ)
    (X W H : List (List α)) (hX : MatNonneg X) (hW : MatNonneg W) (hH : MatNonneg H)
    (n : ℕ) :
    MatNonneg ((update_matrices K X)^[n] (W, H)).1 ∧
    MatNonneg ((update_matrices K X)^[n] (W, H)).2 := by
  induction n generalizing W H with
  | zero => exact ⟨hW, hH⟩
  | succ k ih =>
    rw [Function.iterate_succ_apply]
    have hstep := update_matrices_nonneg K X (W, H) hX hW hH
    have := ih (update_matrices K X (W, H)).1 (update_matrices K X (W, H)).2 hstep.1 hstep.2
    simpa using this

/-- Witness for the amended claim C5 at a concrete rational instance. -/
theorem claim_C5_nonneg_when_X_nonneg_witness :
    MatNonneg ((update_matrices (α := ℚ) 1 [[1]])^[1] ([[1]], [[1]])).1 ∧
    MatNonneg ((update_matrices (α := ℚ) 1 [[1]])^[1] ([[1]], [[1]])).2 := by
  have h1 : MatNonneg ([[1]] : List (List ℚ)) := by
    intro row hrow x hx
    simp only [List.mem_singleton] at hrow
    subst hrow
    simp only [List.mem_singleton] at hx
    subst hx
    norm_num
  exact claim_C5_nonneg_when_X_nonneg 1 [[1]] [[1]] [[1]] h1 h1 h1 1

/-- Counterexample to claim C5 as stated: for the document list
`["cat cat", "cat cat"]` with `num_topics = 1` and the legal random
initialization `0.5` everywhere, after the first multiplicative-update
iteration of `SimpleNMF.fit` (the backup copy, whose fit actually iterates)
the single entry of `H` is `2·log(2/3) < 0`: the entries of `W`/`H` do NOT
all remain non-negative for every document list and initialization. -/
theorem claim_C5_counterexample :
    g2 (fitNMFBackup 1 1 0 exDocs (fun _ => 1/2) (fun _ => 1/2)).H 0 0 < 0 := by
  rw [show g2 (fitNMFBackup 1 1 0 exDocs (fun _ => 1/2) (fun _ => 1/2)).H 0 0
      = g2 [[2 * Real.log ((2 : ℝ) / 3)]] 0 0 from by rw [backup_H_eval]]
  have hc : Real.log ((2 : ℝ) / 3) < 0 := Real.log_neg (by norm_num) (by norm_num)
  show ((([[2 * Real.log ((2 : ℝ) / 3)]] : List (List ℝ)).getD 0 []).getD 0 0) < 0
  simp only [List.getD_cons_zero]
  linarith

/-! ## SimpleLDA.fit (lines 132-155) -/

/-- Python `m[i][j] = v` on the assignment table. -/
def set2 (m : List (List ℕ)) (i j v : ℕ) : List (List ℕ) :=
  m.set i ((m.getD i []).set j v)

/-- One body execution of the Gibbs loop (lines 149-152): read the old
assignment, resample, store the new one.  The second component is the global
step counter indexing the randomness streams. -/
def gibbsStep (uS : ℕ → ℚ) (fbS : ℕ → ℕ) (mn : LDAModel × ℕ) (d pos w : ℕ) :
    LDAModel × ℕ :=
  let old := (mn.1.topic_assignments.getD d []).getD pos 0
  let r := sample_topic mn.1 d w old (uS mn.2) (fbS mn.2)
  ({ r.1 with topic_assignments := set2 r.1.topic_assignments d pos r.2 }, mn.2 + 1)

/-- The inner token loop of one Gibbs sweep over document `d`. -/
def sweepDoc (uS : ℕ → ℚ) (fbS : ℕ → ℕ) (d pos : ℕ) (ws : List ℕ) (mn : LDAModel × ℕ) :
    LDAModel × ℕ :=
  match ws with
  | [] => mn
  | w :: rest => sweepDoc uS fbS d (pos + 1) rest (gibbsStep uS fbS mn d pos w)

/-- The document loop of one Gibbs sweep. -/
def sweepAll (uS : ℕ → ℚ) (fbS : ℕ → ℕ) (d0 : ℕ) (docs : List (List ℕ))
    (mn : LDAModel × ℕ) : LDAModel × ℕ :=
  match docs with
  | [] => mn
  | doc :: rest => sweepAll uS fbS (d0 + 1) rest (sweepDoc uS fbS d0 0 doc mn)

/-- One full Gibbs sweep (lines 148-152). -/
def sweep (uS : ℕ → ℚ) (fbS : ℕ → ℕ) (docs : List (List ℕ)) (mn : LDAModel × ℕ) :
    LDAModel × ℕ :=
  sweepAll uS fbS 0 docs mn

/-- `SimpleLDA.fit` (lines 132-155): build vocabulary, convert the documents
to id sequences, initialize assignments, run `num_iterations` sweeps. -/
def fitLDA (num_topics : ℕ) (alpha beta : ℚ) (num_iterations : ℕ)
    (documents : List (List String)) (rng : ℕ → ℕ) (uS : ℕ → ℚ) (fbS : ℕ → ℕ) :
    LDAModel :=
  let vocabulary := build_vocabulary documents
  let m0 : LDAModel := ⟨num_topics, alpha, beta, vocabulary, [], [], [], [], []⟩
  let processed := preprocess_documents vocabulary documents
  let m1 := initialize_assignments m0 processed rng
  ((sweep uS fbS processed)^[num_iterations] (m1, 0)).1

/-! ### Claim C8: empty-vocabulary corpora are handled without failure -/

theorem vocab_keys_mem (docs : List (List String)) (p : String × ℕ)
    (hp : p ∈ wordFreq docs) : p.1 ∈ docs.flatten := by
  have : p.1 ∈ (wordFreq docs).map Prod.fst := List.mem_map.mpr ⟨p, hp, rfl⟩
  rw [wordFreq, tokCounter_keys] at this
  exact (firstSeen_mem docs.flatten p.1).mp this

theorem build_vocabulary_short (docs : List (List String))
    (hshort : ∀ t ∈ docs.flatten, t.length ≤ 2) : build_vocabulary docs = [] := by
  rw [build_vocabulary]
  have : ((wordFreq docs).filter fun p =>
      decide (minFreqLDA docs ≤ p.2) && decide (2 < p.1.length)) = [] := by
    rw [List.filter_eq_nil_iff]
    intro p hp
    have := hshort p.1 (vocab_keys_mem docs p hp)
    simp
    intro
    omega
  rw [this]
  rfl

theorem build_vocabulary_nmf_short (docs : List (List String))
    (hshort : ∀ t ∈ docs.flatten, t.length ≤ 2) : build_vocabulary_nmf docs = [] := by
  rw [build_vocabulary_nmf]
  have : ((wordFreq docs).filter fun p =>
      decide (1 ≤ p.2) && decide (2 < p.1.length)) = [] := by
    rw [List.filter_eq_nil_iff]
    intro p hp
    have := hshort p.1 (vocab_keys_mem docs p hp)
    simp
    intro
    omega
  rw [this]
  rfl

theorem preprocess_empty_vocab (docs : List (List String)) :
    preprocess_documents [] docs = List.replicate docs.length [] := by
  induction docs with
  | nil => rfl
  | cons d rest ih =>
    rw [preprocess_documents] at ih ⊢
    simp only [List.map_cons, List.length_cons, List.replicate_succ]
    rw [ih]
    simp

theorem tokenTriplesAux_all_empty (ds : List (List ℕ)) (rng : ℕ → ℕ) (d0 n0 : ℕ)
    (h : ∀ doc ∈ ds, doc = ([] : List ℕ)) : tokenTriplesAux ds rng d0 n0 = [] := by
  induction ds generalizing d0 n0 with
  | nil => rfl
  | cons doc rest ih =>
    rw [tokenTriplesAux]
    rw [h doc (by simp)]
    rw [ih (d0 + 1) (n0 + ([] : List ℕ).length) fun d hd => h d (by simp [hd])]
    rfl

theorem sweepAll_all_empty (uS : ℕ → ℚ) (fbS : ℕ → ℕ) (d0 : ℕ) (docs : List (List ℕ))
    (mn : LDAModel × ℕ) (h : ∀ doc ∈ docs, doc = ([] : List ℕ)) :
    sweepAll uS fbS d0 docs mn = mn := by
  induction docs generalizing d0 mn with
  | nil => rfl
  | cons doc rest ih =>
    rw [sweepAll, h doc (by simp)]
    exact ih (d0 + 1) mn fun d hd => h d (by simp [hd])

theorem get_top_words_empty_vocab (m : LDAModel) (h : m.vocabulary = []) (tid : ℤ)
    (nw : ℕ) : get_top_words m tid nw = [] := by
  rw [get_top_words]
  by_cases hg : (m.num_topics : ℤ) ≤ tid
  · rw [if_pos hg]
  · rw [if_neg hg]
    simp [h, sortByWeight]

theorem get_top_words_nmf_empty_vocab (m : NMFModel) (h : m.vocabulary = []) (tid : ℤ)
    (nw : ℕ) : get_top_words_nmf m tid nw = [] := by
  rw [get_top_words_nmf]
  by_cases hg : ((m.num_topics : ℤ) ≤ tid ∨ m.H.isEmpty)
  · rw [if_pos hg]
  · rw [if_neg hg]
    simp [h]

theorem range_map_const {β : Type} (n : ℕ) (c : β) :
    (List.range n).map (fun _ => c) = List.replicate n c := by
  induction n with
  | zero => rfl
  | succ k ih =>
    rw [List.range_succ, List.map_append, ih, List.map_cons, List.map_nil,
      ← List.replicate_succ']

/-- The state `fitLDA` reaches on a corpus whose every token has length at
most 2: the empty vocabulary, zeroed counts over empty documents. -/
theorem fitLDA_short (num_topics : ℕ) (alpha beta : ℚ) (num_iterations : ℕ)
    (documents : List (List String)) (rng : ℕ → ℕ) (uS : ℕ → ℚ) (fbS : ℕ → ℕ)
    (hshort : ∀ t ∈ documents.flatten, t.length ≤ 2) :
    fitLDA num_topics alpha beta num_iterations documents rng uS fbS
      = initBase ⟨num_topics, alpha, beta, [], [], [], [], [], []⟩
          (List.replicate documents.length []) rng := by
  have hv := build_vocabulary_short documents hshort
  have hproc : preprocess_documents (build_vocabulary documents) documents
      = List.replicate documents.length [] := by
    rw [hv, preprocess_empty_vocab]
  have hallrep : ∀ doc ∈ List.replicate documents.length ([] : List ℕ), doc = [] :=
    fun doc hd => List.eq_of_mem_replicate hd
  have hinit : initialize_assignments ⟨num_topics, alpha, beta, build_vocabulary documents,
      [], [], [], [], []⟩ (List.replicate documents.length []) rng
      = initBase ⟨num_topics, alpha, beta, build_vocabulary documents, [], [], [], [], []⟩
          (List.replicate documents.length []) rng := by
    rw [initialize_assignments, tokenTriples,
      tokenTriplesAux_all_empty _ rng 0 0 hallrep]
    rfl
  have hfix : sweep uS fbS (List.replicate documents.length [])
      ((initBase ⟨num_topics, alpha, beta, build_vocabulary documents, [], [], [], [], []⟩
        (List.replicate documents.length []) rng), 0)
      = ((initBase ⟨num_topics, alpha, beta, build_vocabulary documents, [], [], [], [], []⟩
        (List.replicate documents.length []) rng), 0) :=
    sweepAll_all_empty uS fbS 0 _ _ hallrep
  show ((sweep uS fbS (preprocess_documents (build_vocabulary documents) documents))^[num_iterations]
      (initialize_assignments ⟨num_topics, alpha, beta, build_vocabulary documents,
        [], [], [], [], []⟩ (preprocess_documents (build_vocabulary documents) documents) rng,
        0)).1
    = initBase ⟨num_topics, alpha, beta, [], [], [], [], [], []⟩
        (List.replicate documents.length []) rng
  rw [hproc, hinit, Function.iterate_fixed hfix]
  rw [hv]

/-- Claim C8: on a corpus in which no token survives vocabulary filtering
(every token has length at most 2), `fit` completes for both `SimpleLDA` and
`SimpleNMF` (the embedding is total and, with `alpha > 0` and at least one
topic, every division executed has a nonzero denominator), `get_top_words`
returns the empty list for every topic id, and `get_document_topics` returns
a valid probability vector (the smoothed uniform `alpha/(K*alpha) = 1/K` for
LDA, a length-`K` vector summing to 1 for NMF). -/
theorem claim_C8_empty_vocab_safe (K : ℕ) (a b : ℚ) (iters : ℕ)
    (documents : List (List String)) (rng : ℕ → ℕ) (uS : ℕ → ℚ) (fbS : ℕ → ℕ)
    (lr : ℝ) (rngW rngH : ℕ → ℝ)
    (hshort : ∀ doc ∈ documents, ∀ t ∈ doc, t.length ≤ 2)
    (ha : 0 < a) (hK : 1 ≤ K) :
    build_vocabulary documents = [] ∧
    (fitLDA K a b iters documents rng uS fbS).vocabulary = [] ∧
    (∀ (tid : ℤ) (nw : ℕ),
      get_top_words (fitLDA K a b iters documents rng uS fbS) tid nw = []) ∧
    (∀ did : ℕ, did < documents.length →
      get_document_topics (fitLDA K a b iters documents rng uS fbS) (did : ℤ)
        = List.replicate K (a / ((K : ℚ) * a)) ∧
      (get_document_topics (fitLDA K a b iters documents rng uS fbS) (did : ℤ)).sum = 1) ∧
    build_vocabulary_nmf documents = [] ∧
    (fitNMFAdv K iters lr documents rngW rngH).vocabulary = [] ∧
    (∀ (tid : ℤ) (nw : ℕ),
      get_top_words_nmf (fitNMFAdv K iters lr documents rngW rngH) tid nw = []) ∧
    (∀ did : ℕ, did < documents.length →
      (get_document_topics_nmf (fitNMFAdv K iters lr documents rngW rngH) (did : ℤ)).length
        = K ∧
      (get_document_topics_nmf (fitNMFAdv K iters lr documents rngW rngH) (did : ℤ)).sum
        = 1) := by
  have hflat : ∀ t ∈ documents.flatten, t.length ≤ 2 := by
    intro t ht
    obtain ⟨doc, hdoc, htd⟩ := List.mem_flatten.mp ht
    exact hshort doc hdoc t htd
  have hv := build_vocabulary_short documents hflat
  have hfit := fitLDA_short K a b iters documents rng uS fbS hflat
  have hKQ : ((K : ℚ)) ≠ 0 := by
    have : (1 : ℚ) ≤ (K : ℚ) := by exact_mod_cast hK
    linarith
  have haQ : a ≠ 0 := ne_of_gt ha
  refine ⟨hv, ?_, ?_, ?_, ?_, ?_, ?_, ?_⟩
  · rw [hfit]
    rfl
  · intro tid nw
    rw [hfit]
    exact get_top_words_empty_vocab _ rfl tid nw
  · intro did hdid
    rw [hfit]
    have hdtc : (initBase ⟨K, a, b, [], [], [], [], [], []⟩
        (List.replicate documents.length []) rng).doc_topic_counts
        = List.replicate documents.length (List.replicate K (0 : ℤ)) := by
      simp [initBase]
    have hdll : (initBase ⟨K, a, b, [], [], [], [], [], []⟩
        (List.replicate documents.length []) rng).doc_lengths
        = List.replicate documents.length 0 := by
      simp [initBase]
    have hKeq : (initBase ⟨K, a, b, [], [], [], [], [], []⟩
        (List.replicate documents.length []) rng).num_topics = K := rfl
    have haeq : (initBase ⟨K, a, b, [], [], [], [], [], []⟩
        (List.replicate documents.length []) rng).alpha = a := rfl
    have hgdt : get_document_topics (initBase ⟨K, a, b, [], [], [], [], [], []⟩
        (List.replicate documents.length []) rng) (did : ℤ)
        = List.replicate K (a / ((K : ℚ) * a)) := by
      rw [get_document_topics, hdtc, hdll, hKeq, haeq]
      rw [if_neg (by simp; push_cast; omega)]
      rw [pyGetD_of_nonneg _ _ _ (by positivity) (by simp; exact_mod_cast hdid)]
      rw [pyGetD_of_nonneg _ _ _ (by positivity) (by simp; exact_mod_cast hdid)]
      rw [show ((did : ℤ)).toNat = did from rfl]
      rw [replicate_getD _ _ _ _ hdid, replicate_getD _ _ _ _ hdid]
      rw [← range_map_const K (a / ((K : ℚ) * a))]
      apply List.map_congr_left
      intro topic htopic
      rw [replicate_getD _ _ _ _ (List.mem_range.mp htopic)]
      norm_num
    refine ⟨hgdt, ?_⟩
    rw [hgdt, List.sum_replicate, nsmul_eq_mul]
    field_simp
  · exact build_vocabulary_nmf_short documents hflat
  · show build_vocabulary_nmf documents = []
    exact build_vocabulary_nmf_short documents hflat
  · intro tid nw
    apply get_top_words_nmf_empty_vocab
    show build_vocabulary_nmf documents = []
    exact build_vocabulary_nmf_short documents hflat
  · intro did hdid
    have hKR : ((K : ℝ)) ≠ 0 := by
      have : (1 : ℝ) ≤ (K : ℝ) := by exact_mod_cast hK
      linarith
    have hWlen : (fitNMFAdv K iters lr documents rngW rngH).W.length
        = documents.length := by
      show ((List.range documents.length).map _).length = _
      simp
    have hguard : ¬((fitNMFAdv K iters lr documents rngW rngH).W.isEmpty
        ∨ ((fitNMFAdv K iters lr documents rngW rngH).W.length : ℤ) ≤ (did : ℤ)) := by
      have hne : (fitNMFAdv K iters lr documents rngW rngH).W ≠ [] := by
        intro hc
        have h0 : documents.length = 0 := by
          rw [← hWlen, hc]
          rfl
        omega
      refine not_or.mpr ⟨?_, ?_⟩
      · simpa [List.isEmpty_iff] using hne
      · rw [hWlen]
        push_cast
        omega
    have hrow : pyGetD (fitNMFAdv K iters lr documents rngW rngH).W (did : ℤ) []
        = (List.range K).map fun t => rngW (did * K + t) := by
      rw [pyGetD_of_nonneg _ _ _ (by positivity) (by rw [hWlen]; exact_mod_cast hdid)]
      show ((List.range documents.length).map fun d =>
        (List.range K).map fun t => rngW (d * K + t)).getD (did : ℤ).toNat [] = _
      rw [show ((did : ℤ)).toNat = did from rfl]
      rw [range_map_getD _ _ _ hdid]
    rw [get_document_topics_nmf, if_neg hguard, hrow]
    by_cases hsum : ((List.range K).map fun t => rngW (did * K + t)).sum = 0
    · rw [if_pos hsum]
      constructor
      · show (List.replicate K ((1 : ℝ) / (K : ℝ))).length = K
        simp
      · show (List.replicate K ((1 : ℝ) / (K : ℝ))).sum = 1
        rw [List.sum_replicate, nsmul_eq_mul]
        field_simp
    · rw [if_neg hsum]
      constructor
      · simp
      · rw [sum_map_div_list, div_self hsum]

/-- Witness for claim C8 at the concrete corpus `["ab", "cd"]`. -/
theorem claim_C8_empty_vocab_safe_witness :
    build_vocabulary [["ab"], ["cd"]] = [] ∧
    get_top_words (fitLDA 2 (1/10) (1/100) 5 [["ab"], ["cd"]]
      (fun _ => 0) (fun _ => 0) (fun _ => 0)) 0 10 = [] ∧
    (get_document_topics (fitLDA 2 (1/10) (1/100) 5 [["ab"], ["cd"]]
      (fun _ => 0) (fun _ => 0) (fun _ => 0)) 0).sum = 1 ∧
    (get_document_topics_nmf (fitNMFAdv 2 5 0 [["ab"], ["cd"]]
      (fun _ => 1/2) (fun _ => 1/2)) 0).sum = 1 := by
  obtain ⟨h1, -, h3, h4, -, -, -, h8⟩ := claim_C8_empty_vocab_safe 2 (1/10) (1/100) 5
    [["ab"], ["cd"]] (fun _ => 0) (fun _ => 0) (fun _ => 0) 0
    (fun _ => 1/2) (fun _ => 1/2) (by decide) (by norm_num) (by norm_num)
  exact ⟨h1, h3 0 10, (h4 0 (by norm_num)).2, (h8 0 (by norm_num)).2⟩

/-! ### Claim C10: negative indices slip past the range guards -/

/-- Counterexample to claim C10 as stated: on a fitted model whose
vocabulary is empty (corpus of length-2 tokens), `get_top_words(-1)` DOES
return the empty list, so callers cannot distinguish it from the guard's
empty list for any fitted model. -/
theorem claim_C10_counterexample :
    get_top_words (fitLDA 2 (1/10) (1/100) 100 [["ab"], ["cd"]]
      (fun _ => 0) (fun _ => 0) (fun _ => 0)) (-1) 10 = [] := by
  rw [fitLDA_short 2 (1/10) (1/100) 100 [["ab"], ["cd"]]
    (fun _ => 0) (fun _ => 0) (fun _ => 0) (by decide)]
  exact get_top_words_empty_vocab _ rfl (-1) 10

/-- Amended claim C10: the guards test only `topic_id >= num_topics` and
`doc_id >= len(doc_topic_counts)`, so a negative index `-k` falls through
and Python negative indexing reads topic `num_topics - k` (document
`num_docs - k`); the results coincide with the wrapped non-negative index,
`get_document_topics(-k)` is never empty for `num_topics ≥ 1`, and
`get_top_words(-k)` is non-empty whenever the vocabulary is non-empty (the
counterexample shows the non-emptiness fails for empty-vocabulary fitted
models, which is the only amendment to the claim). -/
theorem claim_C10_negative_indexing (m : LDAModel) (D k dk nw : ℕ)
    (hshape : LDAShape m D) (hk1 : 1 ≤ k) (hk2 : k ≤ m.num_topics)
    (hdk1 : 1 ≤ dk) (hdk2 : dk ≤ D) (hnw : 1 ≤ nw) :
    get_top_words m (-(k : ℤ)) nw = get_top_words m ((m.num_topics - k : ℕ) : ℤ) nw ∧
    (m.vocabulary ≠ [] → get_top_words m (-(k : ℤ)) nw ≠ []) ∧
    get_document_topics m (-(dk : ℤ)) = get_document_topics m ((D - dk : ℕ) : ℤ) ∧
    (1 ≤ m.num_topics → get_document_topics m (-(dk : ℤ)) ≠ []) := by
  have e1 : pyGetD m.topic_word_counts (-(k : ℤ)) []
      = m.topic_word_counts.getD (m.num_topics - k) [] := by
    rw [pyGetD_of_neg _ _ _ hk1 (by rw [hshape.tw_len]; exact hk2), hshape.tw_len]
  have e2 : pyGetD m.topic_word_counts ((m.num_topics - k : ℕ) : ℤ) []
      = m.topic_word_counts.getD (m.num_topics - k) [] := by
    rw [pyGetD_of_nonneg _ _ _ (by positivity)
      (by rw [hshape.tw_len]; push_cast; omega)]
    simp
  have e3 : pyGetD m.topic_counts (-(k : ℤ)) 0
      = m.topic_counts.getD (m.num_topics - k) 0 := by
    rw [pyGetD_of_neg _ _ _ hk1 (by rw [hshape.tc_len]; exact hk2), hshape.tc_len]
  have e4 : pyGetD m.topic_counts ((m.num_topics - k : ℕ) : ℤ) 0
      = m.topic_counts.getD (m.num_topics - k) 0 := by
    rw [pyGetD_of_nonneg _ _ _ (by positivity)
      (by rw [hshape.tc_len]; push_cast; omega)]
    simp
  have g1top : ¬((m.num_topics : ℤ) ≤ -(k : ℤ)) := by push_cast; omega
  have g2top : ¬((m.num_topics : ℤ) ≤ ((m.num_topics - k : ℕ) : ℤ)) := by push_cast; omega
  have htop : get_top_words m (-(k : ℤ)) nw
      = get_top_words m ((m.num_topics - k : ℕ) : ℤ) nw := by
    rw [get_top_words, get_top_words, if_neg g1top, if_neg g2top, e1, e2, e3, e4]
  have e5 : pyGetD m.doc_topic_counts (-(dk : ℤ)) []
      = m.doc_topic_counts.getD (D - dk) [] := by
    rw [pyGetD_of_neg _ _ _ hdk1 (by rw [hshape.dt_len]; exact hdk2), hshape.dt_len]
  have e6 : pyGetD m.doc_topic_counts ((D - dk : ℕ) : ℤ) []
      = m.doc_topic_counts.getD (D - dk) [] := by
    rw [pyGetD_of_nonneg _ _ _ (by positivity)
      (by rw [hshape.dt_len]; push_cast; omega)]
    simp
  have e7 : pyGetD m.doc_lengths (-(dk : ℤ)) 0 = m.doc_lengths.getD (D - dk) 0 := by
    rw [pyGetD_of_neg _ _ _ hdk1 (by rw [hshape.dl_len]; exact hdk2), hshape.dl_len]
  have e8 : pyGetD m.doc_lengths ((D - dk : ℕ) : ℤ) 0
      = m.doc_lengths.getD (D - dk) 0 := by
    rw [pyGetD_of_nonneg _ _ _ (by positivity)
      (by rw [hshape.dl_len]; push_cast; omega)]
    simp
  have g1doc : ¬((m.doc_topic_counts.length : ℤ) ≤ -(dk : ℤ)) := by
    rw [hshape.dt_len]
    push_cast
    omega
  have g2doc : ¬((m.doc_topic_counts.length : ℤ) ≤ ((D - dk : ℕ) : ℤ)) := by
    rw [hshape.dt_len]
    push_cast
    omega
  have hdoc : get_document_topics m (-(dk : ℤ))
      = get_document_topics m ((D - dk : ℕ) : ℤ) := by
    rw [get_document_topics, get_document_topics, if_neg g1doc, if_neg g2doc,
      e5, e6, e7, e8]
  refine ⟨htop, ?_, hdoc, ?_⟩
  · intro hvocab
    rw [get_top_words, if_neg g1top]
    intro hc
    have hlen := congrArg List.length hc
    rw [List.length_take, sortByWeight, List.length_mergeSort, List.length_map,
      List.length_range, List.length_nil] at hlen
    have hv : 0 < m.vocabulary.length := List.length_pos.mpr hvocab
    omega
  · intro hKpos
    rw [get_document_topics, if_neg g1doc]
    intro hc
    have hlen := congrArg List.length hc
    rw [List.length_map, List.length_range, List.length_nil] at hlen
    omega

/-- Witness for the amended claim C10 on the concrete initialized model of
the C3 example (vocabulary `["cat", "dog"]`). -/
theorem claim_C10_negative_indexing_witness :
    get_top_words (initialize_assignments mEx [[0, 1, 0], [1]] (fun n => n % 2)) (-1) 10
      = get_top_words (initialize_assignments mEx [[0, 1, 0], [1]] (fun n => n % 2)) 1 10 ∧
    get_document_topics (initialize_assignments mEx [[0, 1, 0], [1]] (fun n => n % 2)) (-1)
      ≠ [] := by
  have h1 : ∀ doc ∈ [[0, 1, 0], [1]], ∀ w ∈ doc, w < mEx.vocabulary.length := by decide
  have h2 : ∀ n, n % 2 < mEx.num_topics := fun n => Nat.mod_lt _ (by norm_num)
  obtain ⟨hs, -, -⟩ := init_invariants mEx [[0, 1, 0], [1]] (fun n => n % 2) h1 h2
  obtain ⟨ha, -, -, hd⟩ := claim_C10_negative_indexing
    (initialize_assignments mEx [[0, 1, 0], [1]] (fun n => n % 2)) 2 1 1 10 hs
    (by norm_num) (by decide) (by norm_num) (by norm_num) (by norm_num)
  exact ⟨ha, hd (by decide)⟩

/-! ### The count invariants along a full `fit` run (support for claim C3) -/

/-- All recorded topic assignments are in range. -/
def AssignInv (m : LDAModel) : Prop :=
  ∀ row ∈ m.topic_assignments, ∀ t ∈ row, t < m.num_topics

/-- Combined state invariant carried through the Gibbs sweeps. -/
def GoodState (m : LDAModel) (D V K : ℕ) : Prop :=
  LDAShape m D ∧ CountInv m D ∧ AssignInv m ∧ m.vocabulary.length = V ∧ m.num_topics = K

theorem assign_read_lt (m : LDAModel) (h : AssignInv m) (hK : 1 ≤ m.num_topics)
    (d pos : ℕ) : (m.topic_assignments.getD d []).getD pos 0 < m.num_topics := by
  by_cases hpos : pos < (m.topic_assignments.getD d []).length
  · have hx : (m.topic_assignments.getD d []).getD pos 0 ∈ m.topic_assignments.getD d [] := by
      rw [List.getD_eq_getElem _ _ hpos]
      exact List.getElem_mem hpos
    have hrow : m.topic_assignments.getD d [] ∈ m.topic_assignments := by
      by_cases hd : d < m.topic_assignments.length
      · rw [List.getD_eq_getElem _ _ hd]
        exact List.getElem_mem hd
      · rw [List.getD_eq_default _ _ (by omega)] at hpos
        simp at hpos
    exact h _ hrow _ hx
  · rw [List.getD_eq_default _ _ (by omega)]
    omega

theorem set2_assignInv (l : List (List ℕ)) (K d pos v : ℕ)
    (h : ∀ row ∈ l, ∀ t ∈ row, t < K) (hv : v < K) :
    ∀ row ∈ set2 l d pos v, ∀ t ∈ row, t < K := by
  intro row hrow t ht
  rcases List.mem_or_eq_of_mem_set hrow with hold | hnew
  · exact h row hold t ht
  · subst hnew
    rcases List.mem_or_eq_of_mem_set ht with htold | htnew
    · by_cases hd : d < l.length
      · have : l.getD d [] ∈ l := by
          rw [List.getD_eq_getElem _ _ hd]
          exact List.getElem_mem hd
        exact h _ this t htold
      · rw [List.getD_eq_default _ _ (by omega)] at htold
        simp at htold
    · subst htnew
      exact hv

theorem gibbsStep_good (uS : ℕ → ℚ) (fbS : ℕ → ℕ) (mn : LDAModel × ℕ)
    (D V K d pos w : ℕ) (hgood : GoodState mn.1 D V K)
    (hd : d < D) (hw : w < V) (hK : 1 ≤ K) (hfb : ∀ n, fbS n < K) :
    GoodState (gibbsStep uS fbS mn d pos w).1 D V K := by
  obtain ⟨hshape, hinv, hassign, hV, hKe⟩ := hgood
  have hold : (mn.1.topic_assignments.getD d []).getD pos 0 < mn.1.num_topics :=
    assign_read_lt mn.1 hassign (by omega) d pos
  have hsamp := sample_preserves_invariants mn.1 D d w
    ((mn.1.topic_assignments.getD d []).getD pos 0) (uS mn.2) (fbS mn.2)
    hshape hinv hd (by rw [hV]; exact hw) hold (by rw [hKe]; exact hfb mn.2)
  have hnt := sample_topic_snd_lt mn.1 d w
    ((mn.1.topic_assignments.getD d []).getD pos 0) (uS mn.2) (fbS mn.2)
    (by omega) (by rw [hKe]; exact hfb mn.2)
  refine ⟨?_, ?_, ?_, ?_, ?_⟩
  · exact ⟨hsamp.1.dt_len, hsamp.1.dt_row, hsamp.1.tw_len, hsamp.1.tw_row,
      hsamp.1.tc_len, hsamp.1.dl_len⟩
  · exact ⟨hsamp.2.doc_sum, hsamp.2.topic_sum, hsamp.2.total_sum⟩
  · intro row hrow t ht
    exact set2_assignInv ((sample_topic mn.1 d w
      ((mn.1.topic_assignments.getD d []).getD pos 0) (uS mn.2) (fbS mn.2)).1.topic_assignments)
      mn.1.num_topics d pos
      ((sample_topic mn.1 d w ((mn.1.topic_assignments.getD d []).getD pos 0)
        (uS mn.2) (fbS mn.2)).2)
      (fun r hr t' ht' => hassign r hr t' ht') hnt row hrow t ht
  · exact hV
  · exact hKe

theorem sweepDoc_good (uS : ℕ → ℚ) (fbS : ℕ → ℕ) (D V K d : ℕ) (ws : List ℕ)
    (hws : ∀ w ∈ ws, w < V) (hd : d < D) (hK : 1 ≤ K) (hfb : ∀ n, fbS n < K) :
    ∀ (pos : ℕ) (mn : LDAModel × ℕ), GoodState mn.1 D V K →
      GoodState (sweepDoc uS fbS d pos ws mn).1 D V K := by
  induction ws with
  | nil => intro pos mn h; exact h
  | cons w rest ih =>
    intro pos mn h
    rw [sweepDoc]
    exact ih (fun w' hw' => hws w' (by simp [hw'])) (pos + 1) _
      (gibbsStep_good uS fbS mn D V K d pos w h hd (hws w (by simp)) hK hfb)

theorem sweepAll_good (uS : ℕ → ℚ) (fbS : ℕ → ℕ) (D V K : ℕ) (ds : List (List ℕ))
    (hK : 1 ≤ K) (hfb : ∀ n, fbS n < K) :
    ∀ (d0 : ℕ) (mn : LDAModel × ℕ), (∀ doc ∈ ds, ∀ w ∈ doc, w < V) →
      d0 + ds.length ≤ D → GoodState mn.1 D V K →
      GoodState (sweepAll uS fbS d0 ds mn).1 D V K := by
  induction ds with
  | nil => intro d0 mn _ _ h; exact h
  | cons doc rest ih =>
    intro d0 mn hds hlen h
    rw [sweepAll]
    refine ih (d0 + 1) _ (fun d' hd' w hw => hds d' (by simp [hd']) w hw)
      (by simp at hlen; omega) ?_
    exact sweepDoc_good uS fbS D V K d0 doc (hds doc (by simp))
      (by simp at hlen; omega) hK hfb 0 mn h

theorem assignAux_lt (ds : List (List ℕ)) (rng : ℕ → ℕ) (K : ℕ)
    (hrng : ∀ n, rng n < K) :
    ∀ (n0 : ℕ), ∀ row ∈ assignAux ds rng n0, ∀ t ∈ row, t < K := by
  induction ds with
  | nil => intro n0 row hrow; simp [assignAux] at hrow
  | cons doc rest ih =>
    intro n0 row hrow t ht
    rw [assignAux] at hrow
    rcases List.mem_cons.mp hrow with hr | hr
    · subst hr
      obtain ⟨i, -, rfl⟩ := List.mem_map.mp ht
      exact hrng _
    · exact ih (n0 + doc.length) row hr t ht

theorem preprocess_ids_lt (vocab : List String) (docs : List (List String)) :
    ∀ doc ∈ preprocess_documents vocab docs, ∀ w ∈ doc, w < vocab.length := by
  intro doc hdoc w hw
  rw [preprocess_documents] at hdoc
  obtain ⟨words, -, rfl⟩ := List.mem_map.mp hdoc
  obtain ⟨tok, htok, rfl⟩ := List.mem_map.mp hw
  have : tok ∈ vocab := by
    have := List.of_mem_filter htok
    simpa using this
  exact List.indexOf_lt_length.mpr this

/-- The count invariants hold after a full `SimpleLDA.fit` run: the states
reached during `fit` are exactly those covered by the initialization lemma
followed by the per-step preservation lemma, so the invariant survives to the
final model. -/
theorem fitLDA_invariants (K : ℕ) (a b : ℚ) (iters : ℕ) (documents : List (List String))
    (rng : ℕ → ℕ) (uS : ℕ → ℚ) (fbS : ℕ → ℕ) (hK : 1 ≤ K)
    (hrng : ∀ n, rng n < K) (hfb : ∀ n, fbS n < K) :
    LDAShape (fitLDA K a b iters documents rng uS fbS) documents.length ∧
    CountInv (fitLDA K a b iters documents rng uS fbS) documents.length := by
  set vocab := build_vocabulary documents with hvocab
  set m0 : LDAModel := ⟨K, a, b, vocab, [], [], [], [], []⟩ with hm0
  set processed := preprocess_documents vocab documents with hproc
  have hids : ∀ doc ∈ processed, ∀ w ∈ doc, w < m0.vocabulary.length :=
    preprocess_ids_lt vocab documents
  have hDlen : processed.length = documents.length := by
    rw [hproc, preprocess_documents, List.length_map]
  obtain ⟨hs0, hi0, -⟩ := init_invariants m0 processed rng hids hrng
  have hgood0 : GoodState (initialize_assignments m0 processed rng) processed.length
      vocab.length K := by
    refine ⟨hs0, hi0, ?_, ?_, ?_⟩
    · intro row hrow t ht
      have hassign : (initialize_assignments m0 processed rng).topic_assignments
          = assignAux processed rng 0 := by
        rw [initialize_assignments]
        have : ∀ (s : LDAModel) (L : List (ℕ × ℕ × ℕ)),
            (foldInc s L).topic_assignments = s.topic_assignments := by
          intro s L
          induction L generalizing s with
          | nil => rfl
          | cons x t ih => exact ih _
        rw [this]
        rfl
      rw [hassign] at hrow
      have := assignAux_lt processed rng K hrng 0 row hrow t ht
      have hKe : (initialize_assignments m0 processed rng).num_topics = K := by
        rw [initialize_assignments]
        have : ∀ (s : LDAModel) (L : List (ℕ × ℕ × ℕ)),
            (foldInc s L).num_topics = s.num_topics := by
          intro s L
          induction L generalizing s with
          | nil => rfl
          | cons x t ih => exact ih _
        rw [this]
        rfl
      omega
    · have : ∀ (s : LDAModel) (L : List (ℕ × ℕ × ℕ)),
          (foldInc s L).vocabulary = s.vocabulary := by
        intro s L
        induction L generalizing s with
        | nil => rfl
        | cons x t ih => exact ih _
      rw [initialize_assignments, this]
      rfl
    · have : ∀ (s : LDAModel) (L : List (ℕ × ℕ × ℕ)),
          (foldInc s L).num_topics = s.num_topics := by
        intro s L
        induction L generalizing s with
        | nil => rfl
        | cons x t ih => exact ih _
      rw [initialize_assignments, this]
      rfl
  have hiter : ∀ n : ℕ, GoodState (((sweep uS fbS processed)^[n])
      (initialize_assignments m0 processed rng, 0)).1 processed.length vocab.length K := by
    intro n
    induction n with
    | zero => exact hgood0
    | succ k ihk =>
      rw [Function.iterate_succ_apply']
      exact sweepAll_good uS fbS processed.length vocab.length K processed hK hfb 0 _
        (fun doc hdoc w hw => hids doc hdoc w hw) (by omega) ihk
  have := hiter iters
  obtain ⟨hs, hi, -, -, -⟩ := this
  rw [hDlen] at hs hi
  exact ⟨hs, hi⟩

/-- Claim C3: for every document list, immediately after
`SimpleLDA.initialize_assignments` and after every completed `sample_topic`
call during `fit`, every document's topic counts sum to its length, every
topic's word counts sum to its topic count, and the topic counts sum to the
total number of vocabulary-surviving token occurrences.  Stated three ways:
the invariants hold right after initialization; one `sample_topic` call
(with the in-range arguments `fit` supplies) preserves them; and they hold
for the final state of a full `fit` run (whose intermediate states are
exactly those produced by the first two parts). -/
theorem claim_C3_count_invariants :
    (∀ (m : LDAModel) (docs : List (List ℕ)) (rng : ℕ → ℕ),
        (∀ doc ∈ docs, ∀ w ∈ doc, w < m.vocabulary.length) →
        (∀ n, rng n < m.num_topics) →
        LDAShape (initialize_assignments m docs rng) docs.length ∧
        CountInv (initialize_assignments m docs rng) docs.length ∧
        (initialize_assignments m docs rng).doc_lengths = docs.map List.length) ∧
    (∀ (m : LDAModel) (D doc_id word_id old_topic : ℕ) (u : ℚ) (fb : ℕ),
        LDAShape m D → CountInv m D → doc_id < D → word_id < m.vocabulary.length →
        old_topic < m.num_topics → fb < m.num_topics →
        LDAShape (sample_topic m doc_id word_id old_topic u fb).1 D ∧
        CountInv (sample_topic m doc_id word_id old_topic u fb).1 D) ∧
    (∀ (K : ℕ) (a b : ℚ) (iters : ℕ) (documents : List (List String))
        (rng : ℕ → ℕ) (uS : ℕ → ℚ) (fbS : ℕ → ℕ),
        1 ≤ K → (∀ n, rng n < K) → (∀ n, fbS n < K) →
        LDAShape (fitLDA K a b iters documents rng uS fbS) documents.length ∧
        CountInv (fitLDA K a b iters documents rng uS fbS) documents.length) :=
  ⟨init_invariants, sample_preserves_invariants, fitLDA_invariants⟩

/-- Witness for claim C3 at a concrete two-document corpus: invariants after
initialization, after one sampling step, and after a full fit. -/
theorem claim_C3_count_invariants_witness :
    CountInv (initialize_assignments mEx [[0, 1, 0], [1]] (fun n => n % 2)) 2 ∧
    CountInv (sample_topic (initialize_assignments mEx [[0, 1, 0], [1]] (fun n => n % 2))
      0 1 1 (1/3) 0).1 2 ∧
    CountInv (fitLDA 2 (1/10) (1/100) 3 [["cat", "cat", "dog"], ["dog"]]
      (fun n => n % 2) (fun _ => 1/3) (fun _ => 0)) 2 := by
  have h1 : ∀ doc ∈ [[0, 1, 0], [1]], ∀ w ∈ doc, w < mEx.vocabulary.length := by decide
  have h2 : ∀ n, n % 2 < mEx.num_topics := fun n => Nat.mod_lt _ (by norm_num)
  obtain ⟨hs, hi, _⟩ :=
    claim_C3_count_invariants.1 mEx [[0, 1, 0], [1]] (fun n => n % 2) h1 h2
  refine ⟨hi, ?_, ?_⟩
  · exact (claim_C3_count_invariants.2.1
      (initialize_assignments mEx [[0, 1, 0], [1]] (fun n => n % 2))
      2 0 1 1 (1/3) 0 hs hi (by norm_num) (by decide) (by decide) (by decide)).2
  · exact (claim_C3_count_invariants.2.2 2 (1/10) (1/100) 3
      [["cat", "cat", "dog"], ["dog"]] (fun n => n % 2) (fun _ => 1/3) (fun _ => 0)
      (by norm_num) (fun n => Nat.mod_lt _ (by norm_num)) (fun n => by norm_num)).2

/-! ## TopicModelingEngine.perform_topic_modeling: the single-document
splitting fallback and the insufficient-documents guard (lines 660-708).

Documents are modeled at the character level (`List Char`); `len(text)`,
`re.split`, `.strip()`, `.split()` and `'. '.join` are implemented on char
lists with Python semantics. -/

/-- Split a char list at every character satisfying `p` (the net effect of
`re.split` on a single-character class; empty pieces are produced between
consecutive delimiters and are discarded by the caller's strip-filter,
exactly as with the `[.!?]+` pattern). -/
def splitOnP (p : Char → Bool) : List Char → List (List Char)
  | [] => [[]]
  | c :: rest =>
    let r := splitOnP p rest
    if p c then [] :: r else (c :: r.headD []) :: r.tail

/-- Python `str.strip()`: drop leading and trailing whitespace. -/
def trimChars (s : List Char) : List Char :=
  ((s.dropWhile Char.isWhitespace).reverse.dropWhile Char.isWhitespace).reverse

/-- Python `str.split()`: whitespace-separated words, no empties. -/
def pySplitWs (s : List Char) : List (List Char) :=
  (splitOnP Char.isWhitespace s).filter fun t => decide (t ≠ [])

/-- A sentence-ending character of the `re.split(r'[.!?]+', ...)` pattern. -/
def isSentEnd (c : Char) : Bool := decide (c = '.' ∨ c = '!' ∨ c = '?')

/-- `sentences = [s.strip() for s in re.split(r'[.!?]+', text) if s.strip()]`
(lines 669-670). -/
def sentences (s : List Char) : List (List Char) :=
  ((splitOnP isSentEnd s).map trimChars).filter fun t => decide (t ≠ [])

/-- The word-halving fallback (lines 683-698): split into two halves by word
count if at least 4 words, else leave the document list unchanged. -/
def wordSplit (original_text : List Char) : List (List Char) :=
  let words := pySplitWs original_text
  if 4 ≤ words.length then
    let mid_point := words.length / 2
    [List.intercalate [' '] (words.take mid_point),
      List.intercalate [' '] (words.drop mid_point)]
  else [original_text]

/-- The single-document splitting block of `perform_topic_modeling`
(lines 661-705): sentence split for texts longer than 50 characters, word
split as fallback, otherwise the document is left alone. -/
def splitSingleDoc (original_text : List Char) : List (List Char) :=
  if 50 < original_text.length then
    let sents := sentences original_text
    if 2 ≤ sents.length then
      let mid_point := sents.length / 2
      let chunk1 := trimChars (List.intercalate ('.' :: ' ' :: []) (sents.take mid_point))
      let chunk2 := trimChars (List.intercalate ('.' :: ' ' :: []) (sents.drop mid_point))
      if chunk1 ≠ [] ∧ chunk2 ≠ [] then [chunk1 ++ ['.'], chunk2 ++ ['.']]
      else wordSplit original_text
    else wordSplit original_text
  else [original_text]

/-- Lines 661-705: the fallback runs only when exactly one document remains. -/
def splitFallback (processed : List (List Char)) : List (List Char) :=
  if processed.length = 1 then splitSingleDoc (processed.headD []) else processed

/-- Lines 707-708 of `perform_topic_modeling`: after the fallback, fewer
than 2 documents raise (`Except.error`); otherwise the documents proceed to
algorithm selection and training (`Except.ok`). -/
def performGuard (processed : List (List Char)) : Except String (List (List Char)) :=
  let p2 := splitFallback processed
  if p2.length < 2 then
    Except.error "Insufficient valid texts after preprocessing. Need at least 2 documents."
  else Except.ok p2

theorem splitOnP_no_delim (p : Char → Bool) (s : List Char)
    (h : ∀ c ∈ s, p c = false) : splitOnP p s = [s] := by
  induction s with
  | nil => rfl
  | cons c rest ih =>
    rw [splitOnP]
    have hc : p c = false := h c (by simp)
    rw [ih fun d hd => h d (by simp [hd])]
    simp [hc]

/-- Claim C7: `perform_topic_modeling` raises its explicit
insufficient-documents error whenever fewer than 2 usable documents remain
after preprocessing and the single-document splitting fallback; in
particular, a single remaining preprocessed document of at most 50
characters, or one with fewer than 4 whitespace-separated words (preprocessed
documents contain no `.`/`!`/`?`: `clean_text` in
`backend/text_preprocessing.py` unconditionally replaces every
non-alphanumeric, non-whitespace character by a space, so the sentence path
cannot split them), is not split and the call raises instead of training. -/
theorem claim_C7_insufficient_documents :
    (∀ processed : List (List Char), (splitFallback processed).length < 2 →
      performGuard processed = Except.error
        "Insufficient valid texts after preprocessing. Need at least 2 documents.") ∧
    (∀ d : List Char, d.length ≤ 50 →
      performGuard [d] = Except.error
        "Insufficient valid texts after preprocessing. Need at least 2 documents.") ∧
    (∀ d : List Char, (∀ c ∈ d, isSentEnd c = false) → (pySplitWs d).length < 4 →
      performGuard [d] = Except.error
        "Insufficient valid texts after preprocessing. Need at least 2 documents.") := by
  have hword : ∀ d : List Char, (pySplitWs d).length < 4 → wordSplit d = [d] := by
    intro d hw
    rw [wordSplit, if_neg (by omega)]
  have hsingle : ∀ d : List Char, splitFallback [d] = splitSingleDoc d := by
    intro d
    rw [splitFallback, if_pos (show ([d] : List (List Char)).length = 1 from rfl)]
    rfl
  refine ⟨?_, ?_, ?_⟩
  · intro processed hlt
    rw [performGuard, if_pos hlt]
  · intro d hlen
    have : splitFallback [d] = [d] := by
      rw [hsingle, splitSingleDoc, if_neg (by omega)]
    rw [performGuard, this]
    rfl
  · intro d hnosent hwords
    have hsent : sentences d = (([d].map trimChars).filter fun t => decide (t ≠ [])) := by
      rw [sentences, splitOnP_no_delim isSentEnd d hnosent]
    have hsentlen : (sentences d).length ≤ 1 := by
      rw [hsent]
      have : ([d].map trimChars).length = 1 := by simp
      calc (([d].map trimChars).filter fun t => decide (t ≠ [])).length
          ≤ ([d].map trimChars).length := List.length_filter_le _ _
        _ = 1 := by simp
    have hsplit : splitSingleDoc d = [d] := by
      rw [splitSingleDoc]
      by_cases h50 : 50 < d.length
      · rw [if_pos h50, if_neg (by omega), hword d hwords]
      · rw [if_neg h50]
    have : splitFallback [d] = [d] := by rw [hsingle, hsplit]
    rw [performGuard, this]
    rfl

/-- Witness for claim C7: the single 30-character-scale document `"ok"` and
a 60-character no-punctuation 2-word document both raise. -/
theorem claim_C7_insufficient_documents_witness :
    performGuard [String.toList "ok"] = Except.error
      "Insufficient valid texts after preprocessing. Need at least 2 documents." ∧
    performGuard [String.toList
      ("aaaaaaaaaaaaaaaaaaaaaaaaaaaaaaaaaa bbbbbbbbbbbbbbbbbbbbbbbbbbbbbbbbbb")]
      = Except.error
      "Insufficient valid texts after preprocessing. Need at least 2 documents." := by
  obtain ⟨-, h2, h3⟩ := claim_C7_insufficient_documents
  refine ⟨h2 (String.toList "ok") (by decide), ?_⟩
  exact h3 (String.toList
    "aaaaaaaaaaaaaaaaaaaaaaaaaaaaaaaaaa bbbbbbbbbbbbbbbbbbbbbbbbbbbbbbbbbb")
    (by decide) (by decide)

end NarrativeNexus
